import Mathlib

/-!
# A verification development for the ALWABP VNS heuristic

This file gives a shallow embedding in Lean 4 of the core of the
`alwabp_vns.py` solver (the ALWABP instance/solution model, the
evaluation function, the greedy initial-solution construction with
Kahn's topological sort, the shaking step, the two first-improvement
local searches, the VND descent and the VNS driver), and proves the
stated properties of these components.

Modelling conventions:

* Python `float` values in the time matrix are either finite numbers or
  the sentinel `float('inf')` ("incapacitated").  They are embedded as
  `Option ℚ`, with `none` standing for the infinite sentinel; the test
  `t >= INF` of the source becomes `Option.isNone`, and IEEE comparison
  of a finite value with infinity becomes `floatLt` below.  `cycle_time`
  and the entries of `station_times` use the same representation.
* Python list indexing `l[i]` with a possibly negative index is embedded
  by `pyGet`, which implements Python's wrap-around for `-len ≤ i < 0`.
  Indices outside `[-len, len)` raise `IndexError` in Python; `pyGet`
  returns its default argument there, and every theorem below carries
  well-formedness hypotheses that keep indices inside Python's legal
  range, so the default is never relevant.
* The process-wide random generator of the `random` module is embedded
  as an explicit stream of natural-number draws (`Rng`), threaded
  through every randomized operation; `random.randrange`,
  `random.sample` and `random.shuffle` are modelled as consuming that
  stream.  Wall-clock readings of `time.time()` are likewise an
  explicit stream of rational readings (`Clock`).
* Python's in-place `solution.evaluate()` mutates the cached fields
  `is_feasible`, `cycle_time`, `station_times` of the object; this is
  embedded functionally by `evaluate` returning the updated record, and
  every call site rebinds the result exactly where the source re-reads
  the mutated object.
* The unbounded `while` loops of the local searches, the VND descent
  and the inner VNS loop (which terminate in Python because every
  accepted move strictly decreases the cycle time over a finite search
  space) are embedded with an explicit fuel parameter; the theorems
  quantify over the fuel, and fuel exhaustion returns the current
  solution.  All other recursions are structural or carry an explicit
  termination measure.
-/

/-- IEEE-style strict `<` on finite-or-infinite values (`none` = `+inf`):
`inf < x` is false, `finite < inf` is true. -/
def floatLt : Option ℚ → Option ℚ → Bool
  | some a, some b => decide (a < b)
  | some _, none => true
  | none, _ => false

/-- Python list access `l[i]` for an integer index, with Python's
wrap-around for negative indices in `[-len, 0)`.  Outside `[-len, len)`
Python raises `IndexError`; this total model returns `d` there. -/
def pyGet (l : List α) (d : α) (i : ℤ) : α :=
  if h : 0 ≤ i ∧ i.toNat < l.length then l.get ⟨i.toNat, h.2⟩
  else if h2 : i < 0 ∧ (i + l.length).toNat < l.length ∧ 0 ≤ i + (l.length : ℤ) then
    l.get ⟨(i + l.length).toNat, h2.2.1⟩
  else d

/-- Sum of a list of finite-or-infinite times, `none` (infinite) if any
entry is the incapacitated sentinel.  This is the accumulation loop of
`evaluate`, which short-circuits on the first sentinel it meets. -/
def sumTimes : List (Option ℚ) → Option ℚ
  | [] => some 0
  | none :: _ => none
  | some a :: rest => (sumTimes rest).map (fun b => a + b)

/-- Python `max` over a nonempty list of rationals (the `[]` case is
unreachable at the call site, which guards with `if station_times`). -/
def pyMaxList : List ℚ → ℚ
  | [] => 0
  | x :: xs => xs.foldl max x

/-- Python `max(range 0, range 1, ..., range (m-1), key := f)`: returns the
first index attaining the maximal key (later elements replace the
current best only when strictly greater). -/
def pyArgmax (f : ℕ → Option ℚ) (m : ℕ) : ℕ :=
  (List.range m).foldl (fun best s => if floatLt (f best) (f s) then s else best) 0

/-- An ALWABP instance: `n` tasks, `k` workers (= stations), the
transposed time matrix `task_times[w][i]` and the 1-based precedence
pairs, exactly as held by `ALWABPInstance.__init__`. -/
structure ALWABPInstance where
  num_tasks : ℕ
  num_workers : ℕ
  task_times : List (List (Option ℚ))
  precedences : List (ℕ × ℕ)

/-- The derived `predecessors[j1]` mapping of the instance constructor:
sources of the precedence pairs targeting `j1`, in input order. -/
def predecessorsOf (inst : ALWABPInstance) (j1 : ℕ) : List ℕ :=
  (inst.precedences.filter (fun p => p.2 == j1)).map (fun p => p.1)

/-- The derived `successors[i1]` mapping of the instance constructor. -/
def successorsOf (inst : ALWABPInstance) (i1 : ℕ) : List ℕ :=
  (inst.precedences.filter (fun p => p.1 == i1)).map (fun p => p.2)

/-- `inst.task_times[w][i]` (0-based), the processing time of task `i`
for worker `w`; out-of-range access yields the sentinel (it cannot occur
under the well-formedness hypotheses used below). -/
def getT (inst : ALWABPInstance) (w i : ℕ) : Option ℚ :=
  (inst.task_times.getD w []).getD i none

/-- Well-formedness of an instance, guaranteed by the Python constructor
(`from_stdin` builds an n×k matrix, and `__init__` raises `KeyError` on
any precedence endpoint outside `1..n`). -/
structure InstWF (inst : ALWABPInstance) : Prop where
  times_len : inst.task_times.length = inst.num_workers
  row_len : ∀ row ∈ inst.task_times, row.length = inst.num_tasks
  prec_fst : ∀ p ∈ inst.precedences, 1 ≤ p.1 ∧ p.1 ≤ inst.num_tasks
  prec_snd : ∀ p ∈ inst.precedences, 1 ≤ p.2 ∧ p.2 ≤ inst.num_tasks

/-- An ALWABP solution: the two assignment arrays plus the cached
evaluation fields, as in `ALWABPSolution`.  Task stations are integers
because `-1` marks an unassigned task. -/
structure ALWABPSolution where
  inst : ALWABPInstance
  task_station_assignment : List ℤ
  worker_station_assignment : List ℕ
  is_feasible : Bool
  cycle_time : Option ℚ
  station_times : List (Option ℚ)

/-- `ALWABPSolution.__init__`: fresh solutions are flagged infeasible
with infinite cycle time and empty station times. -/
def mkSolution (inst : ALWABPInstance) (t : List ℤ) (w : List ℕ) : ALWABPSolution :=
  { inst := inst
    task_station_assignment := t
    worker_station_assignment := w
    is_feasible := false
    cycle_time := none
    station_times := [] }

/-- Tasks currently assigned to station `s` (the `tasks_in_station`
dictionary of `evaluate`, built by one pass over `range n`). -/
def tasksInStation (n : ℕ) (t : List ℤ) (s : ℕ) : List ℕ :=
  (List.range n).filter (fun i => t.getD i 0 == (s : ℤ))

/-- The per-station total built by `evaluate` for station `s`. -/
def stationLoad (inst : ALWABPInstance) (w : List ℕ) (t : List ℤ) (s : ℕ) : Option ℚ :=
  sumTimes ((tasksInStation inst.num_tasks t s).map (fun i => getT inst (w.getD s 0) i))

/-- The station-index validity check of `evaluate` and
`check_precedence_feasibility`: `any(s < 0 or s >= m for s in ...)`. -/
def invalidStationsB (m : ℕ) (t : List ℤ) : Bool :=
  t.any (fun s => decide (s < 0) || decide ((m : ℤ) ≤ s))

/-- The precedence-violation scan of `evaluate` and
`check_precedence_feasibility`: some pair with an unassigned endpoint or
`si > sj`. -/
def precViolB (inst : ALWABPInstance) (t : List ℤ) : Bool :=
  inst.precedences.any (fun p =>
    let si := t.getD (p.1 - 1) 0
    let sj := t.getD (p.2 - 1) 0
    si == -1 || sj == -1 || decide (sj < si))

/-- The list of per-station totals built by `evaluate`. -/
def stationSums (inst : ALWABPInstance) (w : List ℕ) (t : List ℤ) :
    List (Option ℚ) :=
  (List.range inst.num_workers).map (fun s => stationLoad inst w t s)

/-- The computation of `ALWABPSolution.evaluate`: validity of station
indices, then the precedence pairs, then per-station accumulation with
the incapacity short-circuit; on any failure all cached fields are set
to the infeasible sentinels, otherwise `cycle_time` is the maximum
station total (`0.0` for an empty station list). -/
def evalCore (inst : ALWABPInstance) (t : List ℤ) (w : List ℕ) :
    Bool × Option ℚ × List (Option ℚ) :=
  let m := inst.num_workers
  if invalidStationsB m t then
    (false, none, List.replicate m none)
  else if precViolB inst t then
    (false, none, List.replicate m none)
  else
    let sums := stationSums inst w t
    if sums.any (fun q => q.isNone) then
      (false, none, List.replicate m none)
    else
      (true, some (pyMaxList (sums.filterMap id)), sums)

/-- `ALWABPSolution.evaluate` (the in-place update of the three cached
fields, which `evalCore` computes from the instance and the two
assignment arrays alone — `evaluate` reads nothing else). -/
def evaluate (sol : ALWABPSolution) : ALWABPSolution :=
  let r := evalCore sol.inst sol.task_station_assignment sol.worker_station_assignment
  { sol with is_feasible := r.1, cycle_time := r.2.1, station_times := r.2.2 }

/-- `ALWABPSolution.__lt__`: feasible beats infeasible, otherwise the
strictly smaller cycle time wins. -/
def solutionLt (a b : ALWABPSolution) : Bool :=
  if a.is_feasible != b.is_feasible then a.is_feasible
  else floatLt a.cycle_time b.cycle_time

/-- `check_precedence_feasibility`: station indices valid, and no
precedence pair violated. -/
def check_precedence_feasibility (inst : ALWABPInstance) (t : List ℤ) : Bool :=
  let m := inst.num_workers
  if invalidStationsB m t then false
  else if precViolB inst t then false
  else true

/-- Insertion into a sorted list (ascending), for Python `sorted`. -/
def insertAsc (x : ℕ) : List ℕ → List ℕ
  | [] => [x]
  | y :: ys => if x ≤ y then x :: y :: ys else y :: insertAsc x ys

/-- Python `sorted` on a list of naturals (insertion sort). -/
def pySorted (l : List ℕ) : List ℕ :=
  l.foldr insertAsc []

/-- The content of the string built by `to_output_format`.  The decimal
rendering of numbers is abstracted: `report` carries the cycle time and,
for each station `1..m` in order, the 1-based station number, the
1-based worker number and the sorted 1-based task list of that station.
-/
inductive OutputFormat where
  | infeasibleMarker (text : String)
  | report (cycle : Option ℚ) (lines : List (ℕ × ℕ × List ℕ))
deriving DecidableEq

/-- `ALWABPSolution.to_output_format`. -/
def to_output_format (sol : ALWABPSolution) : OutputFormat :=
  if sol.is_feasible = false then
    .infeasibleMarker "inf\nSolução Infactível"
  else
    let m := sol.inst.num_workers
    let n := sol.inst.num_tasks
    .report sol.cycle_time
      ((List.range m).map (fun s =>
        (s + 1,
         sol.worker_station_assignment.getD s 0 + 1,
         pySorted (((List.range n).filter
            (fun i => sol.task_station_assignment.getD i 0 == (s : ℤ))).map
            (fun i => i + 1)))))

/-- The process-wide random generator, modelled as a stream of raw
natural-number draws. -/
abbrev Rng := List ℕ

/-- `random.randrange(n)`: one draw reduced mod `n` (uniform when the
stream is; `n = 0` raises in Python and never occurs below). -/
def randrange (n : ℕ) (g : Rng) : ℕ × Rng :=
  match g with
  | [] => (0, [])
  | x :: rest => (x % n, rest)

/-- `random.sample(range(n), 2)`: two distinct draws from `0..n-1`
(distinct whenever `2 ≤ n`). -/
def sample2 (n : ℕ) (g : Rng) : (ℕ × ℕ) × Rng :=
  let (a, g1) := randrange n g
  let (b0, g2) := randrange (n - 1) g1
  ((a, if a ≤ b0 then b0 + 1 else b0), g2)

theorem randrange_fst_lt (n : ℕ) (g : Rng) (hn : 0 < n) : (randrange n g).1 < n := by
  cases g with
  | nil => simpa [randrange]
  | cons x rest => simpa [randrange] using Nat.mod_lt x hn

/-- `random.shuffle`, modelled as drawing a random permutation of the
list: repeatedly remove the element at a random position. -/
def shuffleModel (l : List α) (g : Rng) : List α × Rng :=
  match l, g with
  | [], g => ([], g)
  | a :: l', g =>
    let kg := randrange (a :: l').length g
    let x := (a :: l').getD kg.1 a
    let res := shuffleModel ((a :: l').eraseIdx kg.1) kg.2
    (x :: res.1, res.2)
termination_by l.length
decreasing_by
  have hk : (randrange (l'.length + 1) g).1 < l'.length + 1 :=
    randrange_fst_lt _ _ (Nat.succ_pos _)
  simp [List.length_eraseIdx, hk]

/-- One decrement step of Kahn's loop: `in_degree[j] -= 1`, appending
`j` to the queue when it reaches zero.  A successor outside `0..n-1`
would raise `KeyError` in Python (impossible for a constructed
instance); it is modelled as leaving the state unchanged except for the
out-of-range `List.set`, which is the identity. -/
def kahnStep (nd : List ℤ) (queue : List ℕ) (j1 : ℕ) : List ℤ × List ℕ :=
  let j := j1 - 1
  let nd' := nd.set j (nd.getD j 0 - 1)
  if j < nd.length ∧ nd'.getD j 0 = 0 then (nd', queue ++ [j]) else (nd', queue)

/-- Processing all successors of a popped task, in order. -/
def kahnProcess (succs : List ℕ) (nd : List ℤ) (queue : List ℕ) : List ℤ × List ℕ :=
  succs.foldl (fun ndq j1 => kahnStep ndq.1 ndq.2 j1) (nd, queue)

/-- Termination measure for Kahn's loop: positive part of the remaining
in-degrees plus the queue length. -/
def kahnMeasure (nd : List ℤ) (q : List ℕ) : ℕ :=
  (nd.map Int.toNat).sum + q.length

theorem sum_map_toNat_set (nd : List ℤ) (j : ℕ) (x : ℤ) (h : j < nd.length) :
    ((nd.set j x).map Int.toNat).sum + (nd.getD j 0).toNat
      = (nd.map Int.toNat).sum + x.toNat := by
  induction nd generalizing j with
  | nil => simp at h
  | cons a l ih =>
    cases j with
    | zero => simp [List.set]; omega
    | succ j' =>
      simp only [List.set, List.map_cons, List.sum_cons, List.getD_cons_succ]
      have := ih j' (by simpa using Nat.lt_of_succ_lt_succ h)
      omega

theorem getD_set_self (l : List α) (i : ℕ) (x d : α) (h : i < l.length) :
    (l.set i x).getD i d = x := by
  simp [List.getD_eq_getElem?_getD, List.getElem?_set_self h]

theorem getD_set_ne (l : List α) (i j : ℕ) (x d : α) (h : i ≠ j) :
    (l.set i x).getD j d = l.getD j d := by
  simp [List.getD_eq_getElem?_getD, List.getElem?_set_ne h]

theorem getD_eq_getElem (l : List α) (i : ℕ) (d : α) (h : i < l.length) :
    l.getD i d = l[i] := by
  simp [List.getD_eq_getElem?_getD, List.getElem?_eq_getElem h]

theorem kahnStep_measure (nd : List ℤ) (q : List ℕ) (j1 : ℕ) :
    kahnMeasure (kahnStep nd q j1).1 (kahnStep nd q j1).2 ≤ kahnMeasure nd q := by
  unfold kahnStep kahnMeasure
  by_cases hlt : j1 - 1 < nd.length
  · have hsum := sum_map_toNat_set nd (j1 - 1) (nd.getD (j1 - 1) 0 - 1) hlt
    have hget : (nd.set (j1 - 1) (nd.getD (j1 - 1) 0 - 1)).getD (j1 - 1) 0
        = nd.getD (j1 - 1) 0 - 1 := getD_set_self _ _ _ _ hlt
    by_cases hz : (nd.set (j1 - 1) (nd.getD (j1 - 1) 0 - 1)).getD (j1 - 1) 0 = 0
    · rw [if_pos ⟨hlt, hz⟩]
      rw [hget] at hz
      simp only [List.length_append, List.length_cons, List.length_nil]
      omega
    · rw [if_neg (fun h => hz h.2)]
      simp only []
      omega
  · have hset : nd.set (j1 - 1) (nd.getD (j1 - 1) 0 - 1) = nd :=
      List.set_eq_of_length_le (by omega)
    rw [if_neg (fun h => hlt h.1), hset]

theorem kahnProcess_measure (succs : List ℕ) (nd : List ℤ) (q : List ℕ) :
    kahnMeasure (kahnProcess succs nd q).1 (kahnProcess succs nd q).2
      ≤ kahnMeasure nd q := by
  induction succs generalizing nd q with
  | nil => simp [kahnProcess]
  | cons j1 rest ih =>
    have h1 := kahnStep_measure nd q j1
    have h2 := ih (kahnStep nd q j1).1 (kahnStep nd q j1).2
    calc kahnMeasure (kahnProcess (j1 :: rest) nd q).1 (kahnProcess (j1 :: rest) nd q).2
        = kahnMeasure (kahnProcess rest (kahnStep nd q j1).1 (kahnStep nd q j1).2).1
            (kahnProcess rest (kahnStep nd q j1).1 (kahnStep nd q j1).2).2 := by
          simp [kahnProcess]
      _ ≤ kahnMeasure (kahnStep nd q j1).1 (kahnStep nd q j1).2 := h2
      _ ≤ kahnMeasure nd q := h1

/-- The `while queue:` loop of Kahn's algorithm in
`generate_initial_solution`: pop the head, append it to the topological
order, decrement the in-degree of each of its successors, enqueueing
those that reach zero. -/
def kahnLoop : ALWABPInstance → List ℤ → List ℕ → List ℕ → List ℕ
  | _, _, [], topo => topo
  | inst, nd, i :: rest, topo =>
    let ndq := kahnProcess (successorsOf inst (i + 1)) nd rest
    kahnLoop inst ndq.1 ndq.2 (topo ++ [i])
termination_by _ nd queue _ => kahnMeasure nd queue
decreasing_by
  have h := kahnProcess_measure (successorsOf inst (i + 1)) nd rest
  simp only [kahnMeasure, List.length_cons] at *
  omega

/-- The topological-order computation of `generate_initial_solution`:
in-degree counting plus the FIFO processing loop. -/
def topoOrder (inst : ALWABPInstance) : List ℕ :=
  let n := inst.num_tasks
  let nd := (List.range n).map (fun i => ((predecessorsOf inst (i + 1)).length : ℤ))
  let queue := (List.range n).filter (fun i => nd.getD i 0 == 0)
  kahnLoop inst nd queue []

/-- The inner station scan of the greedy construction: the first station
`s` in `0..m-1` whose worker is capable of task `i` and for which no
predecessor of `i` sits at a station beyond `s` (the `for s in range(m)`
loop with its `alocado`/`break` flag, i.e. `List.find?`). -/
def stationFor (inst : ALWABPInstance) (workers : List ℕ) (t : List ℤ)
    (i : ℕ) : Option ℕ :=
  (List.range inst.num_workers).find? (fun s =>
    !(getT inst (workers.getD s 0) i).isNone &&
    (predecessorsOf inst (i + 1)).all (fun p1 => !decide ((s : ℤ) < t.getD (p1 - 1) 0)))

/-- The greedy assignment loop over the topological order; `none` when
some task cannot be allocated (this is the error branch of the source,
which then returns the all-unassigned flagged solution). -/
def greedyLoop (inst : ALWABPInstance) (workers : List ℕ) :
    List ℕ → List ℤ → Option (List ℤ)
  | [], t => some t
  | i :: rest, t =>
    match stationFor inst workers t i with
    | some s => greedyLoop inst workers rest (t.set i (s : ℤ))
    | none => none

/-- `generate_initial_solution`: a random worker permutation, Kahn's
topological sort (cycle ⇒ flagged-infeasible all-unassigned solution),
then greedy first-fit placement (failure ⇒ flagged-infeasible
all-unassigned solution), then evaluation. -/
def generate_initial_solution (inst : ALWABPInstance) (g : Rng) :
    ALWABPSolution × Rng :=
  let n := inst.num_tasks
  let m := inst.num_workers
  let wg := shuffleModel (List.range m) g
  let workers := wg.1
  let topo := topoOrder inst
  if topo.length ≠ n then (mkSolution inst (List.replicate n (-1)) workers, wg.2)
  else
    match greedyLoop inst workers topo (List.replicate n (-1)) with
    | none => (mkSolution inst (List.replicate n (-1)) workers, wg.2)
    | some t => (evaluate (mkSolution inst t workers), wg.2)

/-- The accumulation loop of `generate_initial_solution_multi`: keep the
better of the best-so-far (`None` initially) and each fresh start. -/
def multiLoop (inst : ALWABPInstance) :
    ℕ → Option ALWABPSolution → Rng → Option ALWABPSolution × Rng
  | 0, best, g => (best, g)
  | num+1, best, g =>
    let sg := generate_initial_solution inst g
    let best' := match best with
      | none => some sg.1
      | some b => if solutionLt sg.1 b then some sg.1 else some b
    multiLoop inst num best' sg.2

/-- `generate_initial_solution_multi`: `num_starts` independent greedy
starts, returning the best by the solution ordering (`none` only when
`num_starts = 0`). -/
def generate_initial_solution_multi (inst : ALWABPInstance) (num_starts : ℕ)
    (g : Rng) : Option ALWABPSolution × Rng :=
  multiLoop inst num_starts none g

/-- The `shaking` moves sequence for `k = 2` / `k = 3`: `cnt` random
single-task reassignments. -/
def randomMoves : ℕ → ℕ → ℕ → List ℤ → Rng → List ℤ × Rng
  | 0, _, _, t, g => (t, g)
  | cnt+1, n, m, t, g =>
    let ig := randrange n g
    let sg := randrange m ig.2
    randomMoves cnt n m (t.set ig.1 (sg.1 : ℤ)) sg.2

/-- One randomized perturbation of `shaking`, by neighborhood index `k`:
`k = 1` swaps two task stations, `k = 2` does up to 3 random
reassignments, `k = 3` swaps two workers plus up to 2 reassignments,
anything else bumps one task's station by one modulo `m`. -/
def shakingPerturb (sol : ALWABPSolution) (k : ℕ) (g : Rng) :
    (List ℤ × List ℕ) × Rng :=
  let inst := sol.inst
  let n := inst.num_tasks
  let m := inst.num_workers
  let base_t := sol.task_station_assignment
  let base_w := sol.worker_station_assignment
  if k = 1 ∧ 2 ≤ n then
    let ig := sample2 n g
    let i1 := ig.1.1
    let i2 := ig.1.2
    (((base_t.set i1 (base_t.getD i2 0)).set i2 (base_t.getD i1 0), base_w), ig.2)
  else if k = 2 ∧ 0 < n then
    let tg := randomMoves (min 3 n) n m base_t g
    ((tg.1, base_w), tg.2)
  else if k = 3 ∧ 2 ≤ m then
    let sg := sample2 m g
    let s1 := sg.1.1
    let s2 := sg.1.2
    let w' := (base_w.set s1 (base_w.getD s2 0)).set s2 (base_w.getD s1 0)
    let tg := randomMoves (min 2 n) n m base_t sg.2
    ((tg.1, w'), tg.2)
  else
    if 0 < n then
      let ig := randrange n g
      ((base_t.set ig.1 ((base_t.getD ig.1 0 + 1) % (m : ℤ)), base_w), ig.2)
    else ((base_t, base_w), g)

/-- The fast capability pre-check of `shaking` over all tasks
(`new_w[s]` with the possibly negative station of an unassigned task
uses Python wrap-around indexing). -/
def shakingCapOk (inst : ALWABPInstance) (t : List ℤ) (w : List ℕ) : Bool :=
  (List.range inst.num_tasks).all (fun i =>
    !(getT inst (pyGet w 0 (t.getD i 0)) i).isNone)

/-- The bounded retry loop of `shaking` (10 attempts in the source). -/
def shakingLoop (sol : ALWABPSolution) (k : ℕ) :
    ℕ → Rng → ALWABPSolution × Rng
  | 0, g => (sol, g)
  | attempts+1, g =>
    let cg := shakingPerturb sol k g
    let new_t := cg.1.1
    let new_w := cg.1.2
    if !(shakingCapOk sol.inst new_t new_w) then shakingLoop sol k attempts cg.2
    else if !(check_precedence_feasibility sol.inst new_t) then
      shakingLoop sol k attempts cg.2
    else
      let s_prime := evaluate (mkSolution sol.inst new_t new_w)
      if s_prime.is_feasible then (s_prime, cg.2)
      else shakingLoop sol k attempts cg.2

/-- `shaking`: up to 10 randomized attempts at a feasible neighbor,
falling back to the unchanged input solution. -/
def shaking (sol : ALWABPSolution) (k : ℕ) (g : Rng) : ALWABPSolution × Rng :=
  shakingLoop sol k 10 g

/-- One relocation candidate of `local_search_task_reassignment`: move
task `i` to station `s_new`, with the `continue` guards of the source
(same station, precedence violation, incapable destination worker,
not feasible-and-strictly-better). -/
def lsTaskCandidate (sc : ALWABPSolution) (i : ℕ) (s_new : ℕ) :
    Option ALWABPSolution :=
  let inst := sc.inst
  let s_old := sc.task_station_assignment.getD i 0
  if (s_new : ℤ) = s_old then none
  else
    let new_t := sc.task_station_assignment.set i (s_new : ℤ)
    if !(check_precedence_feasibility inst new_t) then none
    else if (getT inst (sc.worker_station_assignment.getD s_new 0) i).isNone then none
    else
      let s_neighbor := evaluate (mkSolution inst new_t sc.worker_station_assignment)
      if s_neighbor.is_feasible && solutionLt s_neighbor sc then some s_neighbor
      else none

/-- The bottleneck station of an evaluated solution:
`max(range(m), key=lambda s: station_times[s])`, i.e. the lowest station
index attaining the maximal station time. -/
def worstStation (sc : ALWABPSolution) : ℕ :=
  pyArgmax (fun s => sc.station_times.getD s none) sc.inst.num_workers

/-- The tasks currently in the bottleneck station of `sc`. -/
def tasksInWorst (sc : ALWABPSolution) : List ℕ :=
  (List.range sc.inst.num_tasks).filter
    (fun i => sc.task_station_assignment.getD i 0 == ((worstStation sc) : ℤ))

/-- One full scan of `local_search_task_reassignment` over the critical
station: the nested `for` loops with the `improved` flag and `break`s,
i.e. the first accepted candidate in task-then-station scan order. -/
def lsTaskPass (sc : ALWABPSolution) : Option ALWABPSolution :=
  (tasksInWorst sc).findSome? (fun i =>
    (List.range sc.inst.num_workers).findSome? (fun s_new => lsTaskCandidate sc i s_new))

/-- `local_search_task_reassignment` (`while True` loop with fuel):
re-evaluate, return on infeasibility or an infinite station time,
otherwise accept the first improving relocation and restart the
bottleneck scan, stopping when no relocation improves. -/
def local_search_task_reassignment : ℕ → ALWABPSolution → ALWABPSolution
  | 0, sol => sol
  | fuel+1, sol =>
    let sc := evaluate sol
    if sc.is_feasible = false then sc
    else if sc.station_times.any (fun q => q.isNone) then sc
    else
      match lsTaskPass sc with
      | some nb => local_search_task_reassignment fuel nb
      | none => sc

/-- One swap candidate of `local_search_worker_swap`: swap the workers
of the bottleneck station and `s2`, with the capability pre-check over
every task (indexed by Python wrap-around, as the stations of unassigned
tasks are `-1`). -/
def lsWorkerCandidate (sc : ALWABPSolution) (worst s2 : ℕ) :
    Option ALWABPSolution :=
  let inst := sc.inst
  if s2 = worst then none
  else
    let w := sc.worker_station_assignment
    let new_w := (w.set worst (w.getD s2 0)).set s2 (w.getD worst 0)
    if !((List.range sc.task_station_assignment.length).all (fun i =>
        !(getT inst (pyGet new_w 0 (sc.task_station_assignment.getD i 0)) i).isNone))
    then none
    else
      let s_neighbor := evaluate (mkSolution inst sc.task_station_assignment new_w)
      if s_neighbor.is_feasible && solutionLt s_neighbor sc then some s_neighbor
      else none

/-- One full scan of `local_search_worker_swap` over swap partners. -/
def lsWorkerPass (sc : ALWABPSolution) : Option ALWABPSolution :=
  (List.range sc.inst.num_workers).findSome?
    (fun s2 => lsWorkerCandidate sc (worstStation sc) s2)

/-- `local_search_worker_swap` (`while True` loop with fuel). -/
def local_search_worker_swap : ℕ → ALWABPSolution → ALWABPSolution
  | 0, sol => sol
  | fuel+1, sol =>
    let sc := evaluate sol
    if sc.is_feasible = false then sc
    else if sc.station_times.any (fun q => q.isNone) then sc
    else
      match lsWorkerPass sc with
      | some nb => local_search_worker_swap fuel nb
      | none => sc

/-- The `while l <= l_max` loop of `vnd` (`l_max = 2`), with fuel:
task reassignment at `l = 1`, worker swap at `l = 2`, reset on strict
improvement. -/
def vndLoop : ℕ → ℕ → ALWABPSolution → ℕ → ALWABPSolution
  | 0, _, sc, _ => sc
  | fuel+1, lsFuel, sc, l =>
    if 2 < l then sc
    else
      let s_prime := if l = 1 then local_search_task_reassignment lsFuel sc
                     else local_search_worker_swap lsFuel sc
      if solutionLt s_prime sc then vndLoop fuel lsFuel s_prime 1
      else vndLoop fuel lsFuel sc (l + 1)

/-- `vnd`: first-improvement descent over the two neighborhoods. -/
def vnd (fuel : ℕ) (sol : ALWABPSolution) : ALWABPSolution :=
  vndLoop fuel fuel sol 1

/-- The wall clock, as an explicit stream of `time.time()` readings. -/
abbrev Clock := List ℚ

/-- One `time.time()` reading. -/
def readClock : Clock → ℚ × Clock
  | [] => (0, [])
  | x :: rest => (x, rest)

/-- The time-limit check
`time_limit is not None and (time.time() - start_time) >= time_limit`;
by short-circuiting, the clock is read only when a limit is set. -/
def vnsCheckTime (time_limit : Option ℚ) (start : ℚ) (c : Clock) : Bool × Clock :=
  match time_limit with
  | none => (false, c)
  | some lim =>
    let tc := readClock c
    (decide (lim ≤ tc.1 - start), tc.2)

/-- The inner `while k <= k_max` loop of `vns`, with fuel (the `k = 1`
reset makes it non-structural).  `Sum.inl` is the in-loop `return
s_initial, s_best` on time-limit expiry; `Sum.inr` hands the updated
state back to the outer loop. -/
def vnsInner (lsFuel k_max : ℕ) (tl : Option ℚ) (start : ℚ)
    (s_init : ALWABPSolution) :
    ℕ → ℕ → ALWABPSolution → ALWABPSolution → Rng → Clock →
    (ALWABPSolution × ALWABPSolution) ⊕ (ALWABPSolution × ALWABPSolution × Rng × Clock)
  | 0, _, s_current, s_best, g, c => .inr (s_current, s_best, g, c)
  | fuel+1, k, s_current, s_best, g, c =>
    if k_max < k then .inr (s_current, s_best, g, c)
    else
      let tc := vnsCheckTime tl start c
      if tc.1 then .inl (s_init, s_best)
      else
        let sg := shaking s_current k g
        let s_pp := vnd lsFuel sg.1
        if solutionLt s_pp s_current then
          let s_best' := if solutionLt s_pp s_best then s_pp else s_best
          vnsInner lsFuel k_max tl start s_init fuel 1 s_pp s_best' sg.2 tc.2
        else
          vnsInner lsFuel k_max tl start s_init fuel (k + 1) s_current s_best sg.2 tc.2

/-- The outer `while iteration < max_iter` loop of `vns`. -/
def vnsOuter (innerFuel lsFuel k_max : ℕ) (tl : Option ℚ) (start : ℚ)
    (s_init : ALWABPSolution) :
    ℕ → ALWABPSolution → ALWABPSolution → Rng → Clock →
    ALWABPSolution × ALWABPSolution
  | 0, _, s_best, _, _ => (s_init, s_best)
  | iters+1, s_current, s_best, g, c =>
    let tc := vnsCheckTime tl start c
    if tc.1 then (s_init, s_best)
    else
      match vnsInner lsFuel k_max tl start s_init innerFuel 1 s_current s_best g tc.2 with
      | .inl pair => pair
      | .inr st => vnsOuter innerFuel lsFuel k_max tl start s_init iters st.1 st.2.1 st.2.2.1 st.2.2.2

/-- `vns`: multi-start initial solution (3 starts), then the outer loop,
returning `(s_initial, s_best)`.  The `getD` default is unreachable
because 3 starts always produce a solution. -/
def vns (inst : ALWABPInstance) (max_iter k_max : ℕ) (time_limit : Option ℚ)
    (fuel : ℕ) (g : Rng) (c : Clock) : ALWABPSolution × ALWABPSolution :=
  let og := generate_initial_solution_multi inst 3 g
  let s_init := og.1.getD (mkSolution inst [] [])
  let sc := readClock c
  vnsOuter fuel fuel k_max time_limit sc.1 s_init max_iter s_init s_init og.2 sc.2

/-- The inner neighborhood loop exactly as the specification words it:
"while `k ≤ k_max`: (re-check time limit; if exceeded, terminate
immediately and return best-known); produce `s' = shake(current, k)`;
produce `s'' = vnd(s')`; if `s'' < current` (strictly better), set
`current = s''`, reset `k = 1`, and if `s'' < best` set `best = s''`;
else increment `k`". -/
def vnsSpecInner (lsFuel k_max : ℕ) (tl : Option ℚ) (start : ℚ)
    (s_init : ALWABPSolution) :
    ℕ → ℕ → ALWABPSolution → ALWABPSolution → Rng → Clock →
    (ALWABPSolution × ALWABPSolution) ⊕ (ALWABPSolution × ALWABPSolution × Rng × Clock)
  | 0, _, current, best, g, c => .inr (current, best, g, c)
  | fuel+1, k, current, best, g, c =>
    if k ≤ k_max then
      let tc := vnsCheckTime tl start c
      if tc.1 then .inl (s_init, best)
      else
        let sg := shaking current k g
        let s_pp := vnd lsFuel sg.1
        if solutionLt s_pp current then
          vnsSpecInner lsFuel k_max tl start s_init fuel 1 s_pp
            (if solutionLt s_pp best then s_pp else best) sg.2 tc.2
        else
          vnsSpecInner lsFuel k_max tl start s_init fuel (k + 1) current best sg.2 tc.2
    else .inr (current, best, g, c)

/-- The outer driver loop exactly as the specification words it: "Loop
while `iteration < max_iter` AND (no time limit configured OR elapsed <
time_limit): set `k = 1`; [inner loop]; after exiting the inner loop,
increment `iteration`", returning the pair (initial, best) on
termination. -/
def vnsSpecOuter (innerFuel lsFuel k_max : ℕ) (tl : Option ℚ) (start : ℚ)
    (s_init : ALWABPSolution) (iteration max_iter : ℕ)
    (current best : ALWABPSolution) (g : Rng) (c : Clock) :
    ALWABPSolution × ALWABPSolution :=
  if iteration < max_iter then
    let tc := vnsCheckTime tl start c
    if tc.1 then (s_init, best)
    else
      match vnsSpecInner lsFuel k_max tl start s_init innerFuel 1 current best g tc.2 with
      | .inl pair => pair
      | .inr st =>
        vnsSpecOuter innerFuel lsFuel k_max tl start s_init (iteration + 1) max_iter
          st.1 st.2.1 st.2.2.1 st.2.2.2
  else (s_init, best)
termination_by max_iter - iteration
decreasing_by omega

/-- The VNS driver exactly as the specification words it: multi-start
initial solution with 3 starts, `current = best = initial`,
`iteration = 0`, then the outer loop. -/
def vnsSpec (inst : ALWABPInstance) (max_iter k_max : ℕ) (time_limit : Option ℚ)
    (fuel : ℕ) (g : Rng) (c : Clock) : ALWABPSolution × ALWABPSolution :=
  let og := generate_initial_solution_multi inst 3 g
  let s_init := og.1.getD (mkSolution inst [] [])
  let sc := readClock c
  vnsSpecOuter fuel fuel k_max time_limit sc.1 s_init 0 max_iter s_init s_init og.2 sc.2

theorem floatLt_irrefl (a : Option ℚ) : floatLt a a = false := by
  cases a <;> simp [floatLt]

theorem floatLt_asymm {a b : Option ℚ} (h : floatLt a b = true) :
    floatLt b a = false := by
  cases a <;> cases b <;> simp_all [floatLt] <;> linarith

theorem floatLt_trans {a b c : Option ℚ} (h1 : floatLt a b = true)
    (h2 : floatLt b c = true) : floatLt a c = true := by
  cases a <;> cases b <;> cases c <;> simp_all [floatLt] <;> linarith

theorem floatLt_antisymm {a b : Option ℚ} (h1 : floatLt a b = false)
    (h2 : floatLt b a = false) : a = b := by
  cases a <;> cases b <;> simp_all [floatLt] <;> linarith

theorem solutionLt_irrefl (a : ALWABPSolution) : solutionLt a a = false := by
  simp [solutionLt, floatLt_irrefl]

theorem solutionLt_eq_floatLt {a b : ALWABPSolution}
    (hf : a.is_feasible = b.is_feasible) :
    solutionLt a b = floatLt a.cycle_time b.cycle_time := by
  unfold solutionLt
  rw [hf]
  simp

theorem solutionLt_asymm {a b : ALWABPSolution} (h : solutionLt a b = true) :
    solutionLt b a = false := by
  by_cases hf : a.is_feasible = b.is_feasible
  · rw [solutionLt_eq_floatLt hf.symm]
    rw [solutionLt_eq_floatLt hf] at h
    exact floatLt_asymm h
  · unfold solutionLt at h ⊢
    rw [if_pos (bne_iff_ne.mpr hf)] at h
    rw [if_pos (bne_iff_ne.mpr (fun e => hf e.symm))]
    cases hb : b.is_feasible
    · rfl
    · exact absurd (h.trans hb.symm) hf

theorem solutionLt_trans {a b c : ALWABPSolution} (h1 : solutionLt a b = true)
    (h2 : solutionLt b c = true) : solutionLt a c = true := by
  unfold solutionLt at *
  rcases Bool.eq_false_or_eq_true a.is_feasible with ha | ha <;>
    rcases Bool.eq_false_or_eq_true b.is_feasible with hb | hb <;>
    rcases Bool.eq_false_or_eq_true c.is_feasible with hc | hc <;>
    simp_all
  · exact floatLt_trans h1 h2
  · exact floatLt_trans h1 h2

/-- Two solutions are incomparable under `__lt__` exactly when they have
the same feasibility flag and the same cycle time. -/
theorem solutionLt_incomp_iff (a b : ALWABPSolution) :
    (solutionLt a b = false ∧ solutionLt b a = false) ↔
      (a.is_feasible = b.is_feasible ∧ a.cycle_time = b.cycle_time) := by
  by_cases hf : a.is_feasible = b.is_feasible
  · rw [solutionLt_eq_floatLt hf, solutionLt_eq_floatLt hf.symm]
    constructor
    · rintro ⟨h1, h2⟩
      exact ⟨hf, floatLt_antisymm h1 h2⟩
    · rintro ⟨-, h⟩
      rw [h]
      exact ⟨floatLt_irrefl _, floatLt_irrefl _⟩
  · constructor
    · rintro ⟨h1, h2⟩
      unfold solutionLt at h1 h2
      rw [if_pos (bne_iff_ne.mpr hf)] at h1
      rw [if_pos (bne_iff_ne.mpr (fun e => hf e.symm))] at h2
      exact absurd (h1.trans h2.symm) hf
    · rintro ⟨h, -⟩
      exact absurd h hf

/-- Specification condition (i): every task's station index lies in
`[0, num_workers)`. -/
def ValidStations (m n : ℕ) (t : List ℤ) : Prop :=
  ∀ i < n, 0 ≤ t.getD i 0 ∧ t.getD i 0 < (m : ℤ)

/-- Specification condition (ii): every precedence pair `(i, j)` has
`task_station[i] ≤ task_station[j]`. -/
def PrecRespected (inst : ALWABPInstance) (t : List ℤ) : Prop :=
  ∀ p ∈ inst.precedences, t.getD (p.1 - 1) 0 ≤ t.getD (p.2 - 1) 0

/-- Specification condition (iii): no task is assigned to a station
whose worker has the incapacitated sentinel for it. -/
def NoIncapable (inst : ALWABPInstance) (t : List ℤ) (w : List ℕ) : Prop :=
  ∀ i < inst.num_tasks,
    (getT inst (w.getD (t.getD i 0).toNat 0) i).isSome = true

theorem validCheck_false_iff (m : ℕ) (t : List ℤ) :
    (invalidStationsB m t = false) ↔
      ∀ i < t.length, 0 ≤ t.getD i 0 ∧ t.getD i 0 < (m : ℤ) := by
  rw [invalidStationsB, List.any_eq_false]
  constructor
  · intro h i hi
    have hmem : t.getD i 0 ∈ t := by
      rw [getD_eq_getElem _ _ _ hi]
      exact List.getElem_mem hi
    have := h _ hmem
    simp only [Bool.or_eq_true, decide_eq_true_eq, not_or, not_lt, not_le] at this
    exact ⟨this.1, this.2⟩
  · intro h x hx
    obtain ⟨i, hi, rfl⟩ := List.mem_iff_getElem.mp hx
    have := h i hi
    rw [getD_eq_getElem _ _ _ hi] at this
    simp only [Bool.or_eq_true, decide_eq_true_eq, not_or, not_lt, not_le]
    omega

theorem sumTimes_eq_none_iff (l : List (Option ℚ)) :
    sumTimes l = none ↔ none ∈ l := by
  induction l with
  | nil => simp [sumTimes]
  | cons t rest ih =>
    cases t with
    | none => simp [sumTimes]
    | some a =>
      simp only [sumTimes, Option.map_eq_none', List.mem_cons]
      rw [ih]
      simp

theorem sumTimes_eq_sum (l : List (Option ℚ)) (h : none ∉ l) :
    sumTimes l = some ((l.map (fun o => o.getD 0)).sum) := by
  induction l with
  | nil => simp [sumTimes]
  | cons t rest ih =>
    cases t with
    | none => exact absurd (List.mem_cons_self _ _) h
    | some a =>
      have hrest : none ∉ rest := fun hc => h (List.mem_cons_of_mem _ hc)
      simp [sumTimes, ih hrest]

theorem mem_tasksInStation {n : ℕ} {t : List ℤ} {s i : ℕ} :
    i ∈ tasksInStation n t s ↔ i < n ∧ t.getD i 0 = (s : ℤ) := by
  simp [tasksInStation, List.mem_filter, List.mem_range]

theorem stationLoad_eq_none_iff (inst : ALWABPInstance) (w : List ℕ)
    (t : List ℤ) (s : ℕ) :
    stationLoad inst w t s = none ↔
      ∃ i ∈ tasksInStation inst.num_tasks t s, getT inst (w.getD s 0) i = none := by
  unfold stationLoad
  rw [sumTimes_eq_none_iff]
  simp [List.mem_map, eq_comm]

theorem evalCore_false_outputs (inst : ALWABPInstance) (t : List ℤ) (w : List ℕ) :
    (evalCore inst t w).1 = false →
    (evalCore inst t w).2.1 = none ∧
      (evalCore inst t w).2.2 = List.replicate inst.num_workers none := by
  unfold evalCore
  dsimp only
  split
  · intro _; exact ⟨rfl, rfl⟩
  · split
    · intro _; exact ⟨rfl, rfl⟩
    · split
      · intro _; exact ⟨rfl, rfl⟩
      · intro h; simp at h

theorem evalCore_true_outputs (inst : ALWABPInstance) (t : List ℤ) (w : List ℕ) :
    (evalCore inst t w).1 = true →
    (evalCore inst t w).2.2 = stationSums inst w t ∧
    (evalCore inst t w).2.1
        = some (pyMaxList ((stationSums inst w t).filterMap id)) ∧
    (stationSums inst w t).any (fun q => q.isNone) = false := by
  unfold evalCore
  dsimp only
  split
  · intro h; simp at h
  · split
    · intro h; simp at h
    · split
      · intro h; simp at h
      · intro _
        refine ⟨rfl, rfl, ?_⟩
        rename_i hnot _
        exact Bool.eq_false_iff.mpr hnot

theorem precViolB_false_iff (inst : ALWABPInstance) (t : List ℤ)
    (hne : ∀ p ∈ inst.precedences,
      t.getD (p.1 - 1) 0 ≠ -1 ∧ t.getD (p.2 - 1) 0 ≠ -1) :
    (precViolB inst t = false) ↔ PrecRespected inst t := by
  rw [precViolB, List.any_eq_false]
  constructor
  · intro h p hp
    have := h p hp
    simp only [Bool.or_eq_true, beq_iff_eq, decide_eq_true_eq, not_or, not_lt] at this
    exact this.2
  · intro h p hp
    have h1 := h p hp
    have h2 := hne p hp
    simp only [Bool.or_eq_true, beq_iff_eq, decide_eq_true_eq, not_or, not_lt]
    exact ⟨⟨h2.1, h2.2⟩, h1⟩

theorem stationSums_any_false_iff (inst : ALWABPInstance) (w : List ℕ)
    (t : List ℤ) :
    ((stationSums inst w t).any (fun q => q.isNone) = false) ↔
      ∀ s < inst.num_workers, stationLoad inst w t s ≠ none := by
  rw [stationSums, List.any_eq_false]
  constructor
  · intro h s hs hnone
    have := h (stationLoad inst w t s)
      (List.mem_map.mpr ⟨s, List.mem_range.mpr hs, rfl⟩)
    rw [hnone] at this
    simp at this
  · intro h q hq
    obtain ⟨s, hs, rfl⟩ := List.mem_map.mp hq
    have := h s (List.mem_range.mp hs)
    simpa [Option.isNone_iff_eq_none] using this

theorem valid_no_unassigned (inst : ALWABPInstance) (t : List ℤ)
    (hl : t.length = inst.num_tasks)
    (hv : ValidStations inst.num_workers inst.num_tasks t) :
    ∀ p ∈ inst.precedences,
      t.getD (p.1 - 1) 0 ≠ -1 ∧ t.getD (p.2 - 1) 0 ≠ -1 := by
  intro p hp
  constructor
  · by_cases hlt : p.1 - 1 < inst.num_tasks
    · have := hv _ hlt
      omega
    · rw [List.getD_eq_getElem?_getD, List.getElem?_eq_none (by omega)]
      simp
  · by_cases hlt : p.2 - 1 < inst.num_tasks
    · have := hv _ hlt
      omega
    · rw [List.getD_eq_getElem?_getD, List.getElem?_eq_none (by omega)]
      simp

/-- The central feasibility characterization of `evaluate`: the
`is_feasible` flag it computes is `true` exactly when every station
index is valid, every precedence pair is respected and no task sits with
an incapable worker. -/
theorem evalCore_fst_iff (inst : ALWABPInstance) (t : List ℤ) (w : List ℕ)
    (hl : t.length = inst.num_tasks) :
    (evalCore inst t w).1 = true ↔
      ValidStations inst.num_workers inst.num_tasks t ∧ PrecRespected inst t ∧
        NoIncapable inst t w := by
  unfold evalCore
  dsimp only
  by_cases h1 : invalidStationsB inst.num_workers t = true
  · rw [if_pos h1]
    simp only [Bool.false_eq_true, false_iff]
    rintro ⟨hv, -, -⟩
    have : invalidStationsB inst.num_workers t = false := by
      rw [validCheck_false_iff]
      intro i hi
      exact hv i (by omega)
    rw [this] at h1
    exact absurd h1 (by simp)
  · have h1f : invalidStationsB inst.num_workers t = false := Bool.eq_false_iff.mpr h1
    have hvalid : ValidStations inst.num_workers inst.num_tasks t := by
      intro i hi
      exact (validCheck_false_iff _ t).mp h1f i (by omega)
    rw [if_neg h1]
    have hne := valid_no_unassigned inst t hl hvalid
    by_cases h2 : precViolB inst t = true
    · rw [if_pos h2]
      simp only [Bool.false_eq_true, false_iff]
      rintro ⟨-, hprec, -⟩
      rw [(precViolB_false_iff inst t hne).mpr hprec] at h2
      exact absurd h2 (by simp)
    · have h2f : precViolB inst t = false := Bool.eq_false_iff.mpr h2
      have hprec : PrecRespected inst t := (precViolB_false_iff inst t hne).mp h2f
      rw [if_neg h2]
      by_cases h3 : (stationSums inst w t).any (fun q => q.isNone) = true
      · rw [if_pos h3]
        simp only [Bool.false_eq_true, false_iff]
        rintro ⟨-, -, hcap⟩
        -- from `hcap`, every station total is a finite sum
        have hall : ∀ s < inst.num_workers, stationLoad inst w t s ≠ none := by
          intro s hs hnone
          obtain ⟨i, hi, hgt⟩ := (stationLoad_eq_none_iff inst w t s).mp hnone
          obtain ⟨hin, hieq⟩ := mem_tasksInStation.mp hi
          have := hcap i hin
          rw [hieq] at this
          simp only [Int.toNat_natCast] at this
          rw [hgt] at this
          simp at this
        rw [(stationSums_any_false_iff inst w t).mpr hall] at h3
        exact absurd h3 (by simp)
      · rw [if_neg h3]
        have h3f : (stationSums inst w t).any (fun q => q.isNone) = false :=
          Bool.eq_false_iff.mpr h3
        have hall := (stationSums_any_false_iff inst w t).mp h3f
        simp only [true_iff]
        refine ⟨hvalid, hprec, ?_⟩
        intro i hin
        have hb := hvalid i hin
        set s : ℕ := (t.getD i 0).toNat with hs
        have hseq : t.getD i 0 = (s : ℤ) := by omega
        have hsm : s < inst.num_workers := by omega
        have hload := hall s hsm
        rw [Ne, stationLoad_eq_none_iff] at hload
        push_neg at hload
        have := hload i (mem_tasksInStation.mpr ⟨hin, hseq⟩)
        simpa [Option.isSome_iff_ne_none] using this

/-- The specification's per-station workload: the sum of
`task_times[worker_station[s]][i]` over the tasks `i` with
`task_station[i] = s`. -/
def stationLoadSpec (inst : ALWABPInstance) (w : List ℕ) (t : List ℤ) (s : ℕ) : ℚ :=
  ((tasksInStation inst.num_tasks t s).map
    (fun i => (getT inst (w.getD s 0) i).getD 0)).sum

theorem stationLoad_eq_some_spec (inst : ALWABPInstance) (w : List ℕ)
    (t : List ℤ) (s : ℕ) (h : stationLoad inst w t s ≠ none) :
    stationLoad inst w t s = some (stationLoadSpec inst w t s) := by
  have hno : none ∉ (tasksInStation inst.num_tasks t s).map
      (fun i => getT inst (w.getD s 0) i) := by
    intro hc
    exact h ((stationLoad_eq_none_iff inst w t s).mpr (by
      obtain ⟨i, hi, hgi⟩ := List.mem_map.mp hc
      exact ⟨i, hi, hgi⟩))
  unfold stationLoad
  rw [sumTimes_eq_sum _ hno]
  unfold stationLoadSpec
  rw [List.map_map]
  rfl

theorem foldl_max_spec (xs : List ℚ) (a : ℚ) :
    xs.foldl max a ∈ a :: xs ∧ a ≤ xs.foldl max a ∧
      ∀ x ∈ xs, x ≤ xs.foldl max a := by
  induction xs generalizing a with
  | nil => exact ⟨List.mem_cons_self _ _, le_rfl, by simp⟩
  | cons x xs ih =>
    obtain ⟨hmem, hle, hall⟩ := ih (max a x)
    have hfold : (x :: xs).foldl max a = xs.foldl max (max a x) := rfl
    refine ⟨?_, ?_, ?_⟩
    · rw [hfold]
      rcases List.mem_cons.mp hmem with h | h
      · rcases max_choice a x with hc | hc
        · rw [h, hc]; exact List.mem_cons_self _ _
        · rw [h, hc]; exact List.mem_cons_of_mem _ (List.mem_cons_self _ _)
      · exact List.mem_cons_of_mem _ (List.mem_cons_of_mem _ h)
    · rw [hfold]
      exact le_trans (le_max_left a x) hle
    · intro y hy
      rw [hfold]
      rcases List.mem_cons.mp hy with h | h
      · rw [h]; exact le_trans (le_max_right a x) hle
      · exact hall y h

theorem pyMaxList_spec (l : List ℚ) (h : l ≠ []) :
    pyMaxList l ∈ l ∧ ∀ x ∈ l, x ≤ pyMaxList l := by
  cases l with
  | nil => exact absurd rfl h
  | cons x xs =>
    obtain ⟨hmem, hle, hall⟩ := foldl_max_spec xs x
    exact ⟨hmem, fun y hy => by
      rcases List.mem_cons.mp hy with h | h
      · exact h ▸ hle
      · exact hall y h⟩

theorem filterMap_id_no_none (l : List (Option ℚ)) (h : ∀ x ∈ l, x ≠ none) :
    l.filterMap id = l.map (fun o => o.getD 0) := by
  induction l with
  | nil => simp
  | cons x xs ih =>
    cases x with
    | none => exact absurd rfl (h none (List.mem_cons_self _ _))
    | some a =>
      simp only [List.filterMap_cons, id, List.map_cons, Option.getD_some]
      rw [ih (fun x hx => h x (List.mem_cons_of_mem _ hx))]

theorem getD_map_range {β : Type} (m s : ℕ) (f : ℕ → β) (d : β) (hs : s < m) :
    ((List.range m).map f).getD s d = f s := by
  rw [getD_eq_getElem _ _ _ (by simpa using hs)]
  simp

theorem some_getD_of_ne_none (o : Option ℚ) (h : o ≠ none) :
    some (o.getD 0) = o := by
  cases o with
  | none => exact absurd rfl h
  | some a => rfl

theorem evaluate_feasible_outputs (sol : ALWABPSolution)
    (h : (evaluate sol).is_feasible = true) :
    (∀ s < sol.inst.num_workers,
      (evaluate sol).station_times.getD s none
        = some (stationLoadSpec sol.inst sol.worker_station_assignment
            sol.task_station_assignment s)) ∧
    (sol.inst.num_workers = 0 → (evaluate sol).cycle_time = some 0) ∧
    (0 < sol.inst.num_workers → ∃ s < sol.inst.num_workers,
      (evaluate sol).cycle_time = (evaluate sol).station_times.getD s none) ∧
    (∀ s < sol.inst.num_workers,
      floatLt (evaluate sol).cycle_time
        ((evaluate sol).station_times.getD s none) = false) := by
  set inst := sol.inst
  set t := sol.task_station_assignment
  set w := sol.worker_station_assignment
  have hcore : (evalCore inst t w).1 = true := h
  obtain ⟨hst, hcy, hany⟩ := evalCore_true_outputs inst t w hcore
  have hall : ∀ s < inst.num_workers, stationLoad inst w t s ≠ none :=
    (stationSums_any_false_iff inst w t).mp hany
  have hno : ∀ x ∈ stationSums inst w t, x ≠ none := by
    intro x hx
    obtain ⟨s, hs, rfl⟩ := List.mem_map.mp hx
    exact hall s (List.mem_range.mp hs)
  have hste : (evaluate sol).station_times = stationSums inst w t := hst
  have hcye : (evaluate sol).cycle_time
      = some (pyMaxList ((stationSums inst w t).filterMap id)) := hcy
  have hgetD : ∀ s < inst.num_workers,
      (evaluate sol).station_times.getD s none = stationLoad inst w t s := by
    intro s hs
    rw [hste]
    exact getD_map_range _ _ _ _ hs
  have hfm : (stationSums inst w t).filterMap id
      = (List.range inst.num_workers).map (fun s => (stationLoad inst w t s).getD 0) := by
    rw [filterMap_id_no_none _ hno, stationSums, List.map_map]
    rfl
  refine ⟨?_, ?_, ?_, ?_⟩
  · intro s hs
    rw [hgetD s hs]
    rw [stationLoad_eq_some_spec inst w t s (hall s hs)]
  · intro hm
    rw [hcye, hfm, hm]
    simp [pyMaxList]
  · intro hm
    have hne : (stationSums inst w t).filterMap id ≠ [] := by
      rw [hfm]
      simp [List.range_eq_nil]
      omega
    obtain ⟨hmem, -⟩ := pyMaxList_spec _ hne
    rw [hfm] at hmem
    obtain ⟨s, hs, hsv⟩ := List.mem_map.mp hmem
    have hsm := List.mem_range.mp hs
    refine ⟨s, hsm, ?_⟩
    rw [hcye, hgetD s hsm, hfm, ← hsv]
    exact some_getD_of_ne_none _ (hall s hsm)
  · intro s hs
    obtain ⟨-, hmax⟩ := pyMaxList_spec ((stationSums inst w t).filterMap id)
      (by
        rw [hfm]
        simp [List.range_eq_nil]
        omega)
    have hv : (stationLoad inst w t s).getD 0
        ≤ pyMaxList ((stationSums inst w t).filterMap id) := by
      apply hmax
      rw [hfm]
      exact List.mem_map.mpr ⟨s, List.mem_range.mpr hs, rfl⟩
    rw [hcye, hgetD s hs, ← some_getD_of_ne_none _ (hall s hs)]
    simp [floatLt]
    exact hv

theorem evaluate_infeasible_outputs (sol : ALWABPSolution)
    (h : (evaluate sol).is_feasible = false) :
    (evaluate sol).cycle_time = none ∧
      (evaluate sol).station_times = List.replicate sol.inst.num_workers none :=
  evalCore_false_outputs sol.inst sol.task_station_assignment
    sol.worker_station_assignment h

/-- A small concrete well-formed instance (2 tasks, 2 workers, one
precedence pair) used to witness the claim theorems. -/
def instW : ALWABPInstance :=
  { num_tasks := 2
    num_workers := 2
    task_times := [[some 1, some 2], [some 3, some 4]]
    precedences := [(1, 2)] }

/-- A concrete solution on `instW`: task 1 on station 0, task 2 on
station 1, identity worker permutation. -/
def solW : ALWABPSolution := mkSolution instW [0, 1] [0, 1]

/-- C1: `evaluate` sets `is_feasible` exactly when station indices are
valid, every precedence pair is respected and no task sits with an
incapable worker; when feasible, each station time is the sum of its
tasks' times under its worker and the cycle time is the maximum station
time (0 with no stations); when infeasible, the cycle time and every
station time are the infinite sentinel. -/
theorem claim_C1 (sol : ALWABPSolution)
    (hl : sol.task_station_assignment.length = sol.inst.num_tasks) :
    ((evaluate sol).is_feasible = true ↔
      ValidStations sol.inst.num_workers sol.inst.num_tasks
          sol.task_station_assignment ∧
        PrecRespected sol.inst sol.task_station_assignment ∧
        NoIncapable sol.inst sol.task_station_assignment
          sol.worker_station_assignment) ∧
    ((evaluate sol).is_feasible = true →
      (∀ s < sol.inst.num_workers,
        (evaluate sol).station_times.getD s none
          = some (stationLoadSpec sol.inst sol.worker_station_assignment
              sol.task_station_assignment s)) ∧
      (sol.inst.num_workers = 0 → (evaluate sol).cycle_time = some 0) ∧
      (0 < sol.inst.num_workers → ∃ s < sol.inst.num_workers,
        (evaluate sol).cycle_time = (evaluate sol).station_times.getD s none) ∧
      (∀ s < sol.inst.num_workers,
        floatLt (evaluate sol).cycle_time
          ((evaluate sol).station_times.getD s none) = false)) ∧
    ((evaluate sol).is_feasible = false →
      (evaluate sol).cycle_time = none ∧
      (evaluate sol).station_times
        = List.replicate sol.inst.num_workers none) := by
  refine ⟨?_, fun h => evaluate_feasible_outputs sol h,
    fun h => evaluate_infeasible_outputs sol h⟩
  exact evalCore_fst_iff sol.inst sol.task_station_assignment
    sol.worker_station_assignment hl

/-- Witness for C1 at the concrete solution `solW`. -/
theorem claim_C1_witness :
    ((evaluate solW).is_feasible = true ↔
      ValidStations solW.inst.num_workers solW.inst.num_tasks
          solW.task_station_assignment ∧
        PrecRespected solW.inst solW.task_station_assignment ∧
        NoIncapable solW.inst solW.task_station_assignment
          solW.worker_station_assignment) ∧
    ((evaluate solW).is_feasible = true →
      (∀ s < solW.inst.num_workers,
        (evaluate solW).station_times.getD s none
          = some (stationLoadSpec solW.inst solW.worker_station_assignment
              solW.task_station_assignment s)) ∧
      (solW.inst.num_workers = 0 → (evaluate solW).cycle_time = some 0) ∧
      (0 < solW.inst.num_workers → ∃ s < solW.inst.num_workers,
        (evaluate solW).cycle_time = (evaluate solW).station_times.getD s none) ∧
      (∀ s < solW.inst.num_workers,
        floatLt (evaluate solW).cycle_time
          ((evaluate solW).station_times.getD s none) = false)) ∧
    ((evaluate solW).is_feasible = false →
      (evaluate solW).cycle_time = none ∧
      (evaluate solW).station_times
        = List.replicate solW.inst.num_workers none) :=
  claim_C1 solW (by decide)

/-- C2: the solution comparison is a strict weak ordering: irreflexive,
asymmetric, transitive, with transitive incomparability; feasible
solutions strictly precede infeasible ones regardless of cycle time;
among feasible solutions the strictly smaller cycle time precedes; equal
cycle times are not distinguished. -/
theorem claim_C2 (a b c : ALWABPSolution) :
    solutionLt a a = false ∧
    (solutionLt a b = true → solutionLt b a = false) ∧
    (solutionLt a b = true → solutionLt b c = true → solutionLt a c = true) ∧
    ((solutionLt a b = false ∧ solutionLt b a = false) →
      (solutionLt b c = false ∧ solutionLt c b = false) →
      (solutionLt a c = false ∧ solutionLt c a = false)) ∧
    (a.is_feasible = true → b.is_feasible = false → solutionLt a b = true) ∧
    (a.is_feasible = true → b.is_feasible = true →
      floatLt a.cycle_time b.cycle_time = true → solutionLt a b = true) ∧
    (a.is_feasible = b.is_feasible → a.cycle_time = b.cycle_time →
      solutionLt a b = false ∧ solutionLt b a = false) := by
  refine ⟨solutionLt_irrefl a, fun h => solutionLt_asymm h,
    fun h1 h2 => solutionLt_trans h1 h2, ?_, ?_, ?_, ?_⟩
  · intro h1 h2
    obtain ⟨hf1, hc1⟩ := (solutionLt_incomp_iff a b).mp h1
    obtain ⟨hf2, hc2⟩ := (solutionLt_incomp_iff b c).mp h2
    exact (solutionLt_incomp_iff a c).mpr ⟨hf1.trans hf2, hc1.trans hc2⟩
  · intro ha hb
    unfold solutionLt
    rw [if_pos (by rw [ha, hb]; rfl)]
    exact ha
  · intro ha hb hlt
    rw [solutionLt_eq_floatLt (ha.trans hb.symm)]
    exact hlt
  · intro hf hc
    exact (solutionLt_incomp_iff a b).mpr ⟨hf, hc⟩

/-- Witness for C2: the feasible `evaluate solW` strictly precedes a
flagged-infeasible fresh solution. -/
theorem claim_C2_witness :
    solutionLt (evaluate solW) (mkSolution instW [0, 0] [0, 1]) = true :=
  (claim_C2 (evaluate solW) (mkSolution instW [0, 0] [0, 1])
    (mkSolution instW [0, 0] [0, 1])).2.2.2.2.1 (by decide) (by decide)

/-- C8: `evaluate` is idempotent on the cached fields and touches
nothing but them: the second evaluation reproduces `is_feasible`,
`cycle_time` and `station_times` exactly, and evaluation leaves the
instance and both assignment arrays unchanged. -/
theorem claim_C8 (sol : ALWABPSolution) :
    (evaluate (evaluate sol)).is_feasible = (evaluate sol).is_feasible ∧
    (evaluate (evaluate sol)).cycle_time = (evaluate sol).cycle_time ∧
    (evaluate (evaluate sol)).station_times = (evaluate sol).station_times ∧
    (evaluate sol).inst = sol.inst ∧
    (evaluate sol).task_station_assignment = sol.task_station_assignment ∧
    (evaluate sol).worker_station_assignment = sol.worker_station_assignment :=
  ⟨rfl, rfl, rfl, rfl, rfl, rfl⟩

/-- C10: freshly constructed solutions are flagged infeasible with
infinite cycle time and empty station times, whatever the arrays; they
never precede any solution in the ordering, every feasible solution
strictly precedes them, and formatting them yields the infeasibility
marker. -/
theorem claim_C10 (inst : ALWABPInstance) (t : List ℤ) (w : List ℕ) :
    (mkSolution inst t w).is_feasible = false ∧
    (mkSolution inst t w).cycle_time = none ∧
    (mkSolution inst t w).station_times = [] ∧
    (∀ other : ALWABPSolution, solutionLt (mkSolution inst t w) other = false) ∧
    (∀ other : ALWABPSolution, other.is_feasible = true →
      solutionLt other (mkSolution inst t w) = true) ∧
    to_output_format (mkSolution inst t w)
      = OutputFormat.infeasibleMarker "inf\nSolução Infactível" := by
  refine ⟨rfl, rfl, rfl, ?_, ?_, rfl⟩
  · intro other
    unfold solutionLt
    by_cases hb : other.is_feasible = true
    · rw [if_pos (by rw [hb]; rfl)]
      rfl
    · have hb' : other.is_feasible = false := Bool.eq_false_iff.mpr hb
      rw [if_neg (by rw [hb']; simp [mkSolution])]
      rfl
  · intro other hb
    unfold solutionLt
    rw [if_pos (by rw [hb]; rfl)]
    exact hb

/-- Witness for C10: the feasible `evaluate solW` strictly precedes the
fresh flagged solution it was built from. -/
theorem claim_C10_witness :
    solutionLt (evaluate solW) (mkSolution instW [0, 1] [0, 1]) = true :=
  (claim_C10 instW [0, 1] [0, 1]).2.2.2.2.1 (evaluate solW) (by decide)

theorem randomMoves_fst_length (cnt n m : ℕ) (t : List ℤ) (g : Rng) :
    (randomMoves cnt n m t g).1.length = t.length := by
  induction cnt generalizing t g with
  | zero => rfl
  | succ c ih =>
    unfold randomMoves
    rw [ih]
    exact List.length_set ..

theorem shakingPerturb_fst_length (sol : ALWABPSolution) (k : ℕ) (g : Rng) :
    (shakingPerturb sol k g).1.1.length = sol.task_station_assignment.length := by
  unfold shakingPerturb
  dsimp only
  split
  · simp [List.length_set]
  · split
    · exact randomMoves_fst_length ..
    · split
      · exact randomMoves_fst_length ..
      · split
        · exact List.length_set ..
        · rfl

theorem shakingLoop_spec (sol : ALWABPSolution) (k : ℕ)
    (attempts : ℕ) (g : Rng) :
    (shakingLoop sol k attempts g).1 = sol ∨
    ∃ new_t new_w, new_t.length = sol.task_station_assignment.length ∧
      (shakingLoop sol k attempts g).1 = evaluate (mkSolution sol.inst new_t new_w) ∧
      (evaluate (mkSolution sol.inst new_t new_w)).is_feasible = true := by
  induction attempts generalizing g with
  | zero => exact Or.inl rfl
  | succ a ih =>
    unfold shakingLoop
    dsimp only
    split
    · exact ih _
    · split
      · exact ih _
      · split
        · rename_i hfeas
          right
          exact ⟨(shakingPerturb sol k g).1.1, (shakingPerturb sol k g).1.2,
            shakingPerturb_fst_length sol k g, rfl, hfeas⟩
        · exact ih _

/-- C3: `shaking` either returns the original solution unchanged (after
its 10 bounded attempts) or a fresh evaluated neighbor that is feasible
— valid station indices, every precedence pair respected, and no task on
an incapable worker; it never returns an infeasible new neighbor. -/
theorem claim_C3 (sol : ALWABPSolution) (k : ℕ) (g : Rng)
    (hl : sol.task_station_assignment.length = sol.inst.num_tasks) :
    (shaking sol k g).1 = sol ∨
    ((shaking sol k g).1.is_feasible = true ∧
      ValidStations sol.inst.num_workers sol.inst.num_tasks
        (shaking sol k g).1.task_station_assignment ∧
      PrecRespected sol.inst (shaking sol k g).1.task_station_assignment ∧
      NoIncapable sol.inst (shaking sol k g).1.task_station_assignment
        (shaking sol k g).1.worker_station_assignment) := by
  rcases shakingLoop_spec sol k 10 g with h | ⟨new_t, new_w, hlen, heq, hfeas⟩
  · exact Or.inl h
  · right
    have hiff := (evalCore_fst_iff sol.inst new_t new_w (by rw [hlen, hl])).mp hfeas
    have hr : (shaking sol k g).1 = evaluate (mkSolution sol.inst new_t new_w) := heq
    rw [hr]
    exact ⟨hfeas, hiff.1, hiff.2.1, hiff.2.2⟩

/-- Witness for C3 at the concrete solution `solW` with `k = 1` and an
empty random stream. -/
theorem claim_C3_witness :
    (shaking solW 1 []).1 = solW ∨
    ((shaking solW 1 []).1.is_feasible = true ∧
      ValidStations solW.inst.num_workers solW.inst.num_tasks
        (shaking solW 1 []).1.task_station_assignment ∧
      PrecRespected solW.inst (shaking solW 1 []).1.task_station_assignment ∧
      NoIncapable solW.inst (shaking solW 1 []).1.task_station_assignment
        (shaking solW 1 []).1.worker_station_assignment) :=
  claim_C3 solW 1 [] (by decide)

theorem floatLt_of_not_lt_of_lt {x y z : Option ℚ} (h1 : floatLt x y = false)
    (h2 : floatLt x z = true) : floatLt y z = true := by
  cases x <;> cases y <;> cases z <;> simp_all [floatLt] <;> linarith

theorem pyArgmax_one (f : ℕ → Option ℚ) : pyArgmax f 1 = 0 := by
  unfold pyArgmax
  simp [List.range_succ, floatLt_irrefl]

theorem pyArgmax_spec (f : ℕ → Option ℚ) (m : ℕ) (hm : 0 < m) :
    pyArgmax f m < m ∧ (∀ s < m, floatLt (f (pyArgmax f m)) (f s) = false) ∧
      ∀ s < pyArgmax f m, floatLt (f s) (f (pyArgmax f m)) = true := by
  induction m with
  | zero => omega
  | succ m ih =>
    have hstep : pyArgmax f (m + 1)
        = if floatLt (f (pyArgmax f m)) (f m) then m else pyArgmax f m := by
      unfold pyArgmax
      rw [List.range_succ, List.foldl_append]
      rfl
    by_cases hm0 : 0 < m
    · obtain ⟨ih1, ih2, ih3⟩ := ih hm0
      by_cases hc : floatLt (f (pyArgmax f m)) (f m) = true
      · rw [hstep, if_pos hc]
        refine ⟨Nat.lt_succ_self m, ?_, ?_⟩
        · intro s hs
          rcases Nat.lt_succ_iff_lt_or_eq.mp hs with h | h
          · by_contra hx
            have hx' : floatLt (f m) (f s) = true := by
              cases hval : floatLt (f m) (f s)
              · exact absurd hval hx
              · rfl
            have htr := floatLt_trans hc hx'
            simp [ih2 s h] at htr
          · subst h
            exact floatLt_irrefl _
        · intro s hs
          rcases lt_trichotomy s (pyArgmax f m) with h | h | h
          · exact floatLt_trans (ih3 s h) hc
          · subst h
            exact hc
          · exact floatLt_of_not_lt_of_lt (ih2 s (by omega)) hc
      · have hcf : floatLt (f (pyArgmax f m)) (f m) = false := Bool.eq_false_iff.mpr hc
        rw [hstep, if_neg hc]
        refine ⟨by omega, ?_, ih3⟩
        intro s hs
        rcases Nat.lt_succ_iff_lt_or_eq.mp hs with h | h
        · exact ih2 s h
        · subst h
          exact hcf
    · have hm0' : m = 0 := by omega
      subst hm0'
      rw [pyArgmax_one]
      refine ⟨Nat.one_pos, ?_, ?_⟩
      · intro s hs
        have : s = 0 := by omega
        subst this
        exact floatLt_irrefl _
      · intro s hs
        omega

theorem range_split {m x : ℕ} {l1 l2 : List ℕ}
    (h : List.range m = l1 ++ x :: l2) :
    x = l1.length ∧ x < m ∧ l1 = List.range x := by
  have hlen : m = l1.length + (l2.length + 1) := by
    have := congrArg List.length h
    simp only [List.length_range, List.length_append, List.length_cons] at this
    omega
  have hlt : l1.length < m := by omega
  have hx : x = l1.length := by
    have h1 : (List.range m)[l1.length]? = some l1.length :=
      List.getElem?_range hlt
    rw [h, List.getElem?_append_right (le_refl l1.length)] at h1
    simpa using h1
  refine ⟨hx, by omega, ?_⟩
  apply List.ext_getElem?
  intro i
  by_cases hi : i < l1.length
  · have hr : (List.range m)[i]? = some i := List.getElem?_range (by omega)
    rw [h, List.getElem?_append_left hi] at hr
    rw [hr, List.getElem?_range (by omega)]
  · rw [List.getElem?_eq_none (by omega), List.getElem?_eq_none (by simp; omega)]

theorem ls_task_infeasible (fuel : ℕ) (sol : ALWABPSolution)
    (h : (evaluate sol).is_feasible = false) :
    local_search_task_reassignment (fuel + 1) sol = evaluate sol := by
  unfold local_search_task_reassignment
  dsimp only
  rw [if_pos h]

theorem ls_task_inf_station (fuel : ℕ) (sol : ALWABPSolution)
    (h2 : (evaluate sol).station_times.any (fun q => q.isNone) = true) :
    local_search_task_reassignment (fuel + 1) sol = evaluate sol := by
  unfold local_search_task_reassignment
  dsimp only
  by_cases h : (evaluate sol).is_feasible = false
  · rw [if_pos h]
  · rw [if_neg h, if_pos h2]

theorem ls_task_pass_none (fuel : ℕ) (sol : ALWABPSolution)
    (h1 : ¬(evaluate sol).is_feasible = false)
    (h2 : ¬(evaluate sol).station_times.any (fun q => q.isNone) = true)
    (h3 : lsTaskPass (evaluate sol) = none) :
    local_search_task_reassignment (fuel + 1) sol = evaluate sol := by
  unfold local_search_task_reassignment
  dsimp only
  rw [if_neg h1, if_neg h2, h3]

theorem ls_task_pass_some (fuel : ℕ) (sol nb : ALWABPSolution)
    (h1 : ¬(evaluate sol).is_feasible = false)
    (h2 : ¬(evaluate sol).station_times.any (fun q => q.isNone) = true)
    (h3 : lsTaskPass (evaluate sol) = some nb) :
    local_search_task_reassignment (fuel + 1) sol
      = local_search_task_reassignment fuel nb := by
  conv_lhs => unfold local_search_task_reassignment
  dsimp only
  rw [if_neg h1, if_neg h2, h3]

/-- Characterization of one relocation candidate: accepted exactly when
the destination differs from the task's current station, the precedence
check and the destination-worker capability check pass, and the
evaluated neighbor is feasible and strictly better than the current
solution. -/
theorem lsTaskCandidate_eq_some_iff (sc : ALWABPSolution) (i s : ℕ)
    (nb : ALWABPSolution) :
    lsTaskCandidate sc i s = some nb ↔
      ((s : ℤ) ≠ sc.task_station_assignment.getD i 0 ∧
       check_precedence_feasibility sc.inst
         (sc.task_station_assignment.set i (s : ℤ)) = true ∧
       (getT sc.inst (sc.worker_station_assignment.getD s 0) i).isSome = true ∧
       nb = evaluate (mkSolution sc.inst
         (sc.task_station_assignment.set i (s : ℤ))
         sc.worker_station_assignment) ∧
       nb.is_feasible = true ∧ solutionLt nb sc = true) := by
  unfold lsTaskCandidate
  dsimp only
  by_cases h1 : (s : ℤ) = sc.task_station_assignment.getD i 0
  · rw [if_pos h1]
    simp [h1]
  · rw [if_neg h1]
    by_cases h2 : check_precedence_feasibility sc.inst
        (sc.task_station_assignment.set i (s : ℤ)) = true
    · rw [if_neg (by simp [h2])]
      by_cases h3 : (getT sc.inst (sc.worker_station_assignment.getD s 0) i).isNone
          = true
      · rw [if_pos h3]
        simp only [Option.isNone_iff_eq_none] at h3
        constructor
        · intro hc
          exact absurd hc (by simp)
        · rintro ⟨-, -, hcap, -⟩
          rw [h3] at hcap
          simp at hcap
      · rw [if_neg h3]
        have h3s : (getT sc.inst (sc.worker_station_assignment.getD s 0) i).isSome
            = true := by
          cases hg : getT sc.inst (sc.worker_station_assignment.getD s 0) i
          · rw [hg] at h3
            simp at h3
          · rfl
        by_cases h4 : ((evaluate (mkSolution sc.inst
            (sc.task_station_assignment.set i (s : ℤ))
            sc.worker_station_assignment)).is_feasible &&
            solutionLt (evaluate (mkSolution sc.inst
              (sc.task_station_assignment.set i (s : ℤ))
              sc.worker_station_assignment)) sc) = true
        · rw [if_pos h4]
          rw [Bool.and_eq_true] at h4
          constructor
          · intro hc
            have hnb := (Option.some_injective _ hc).symm
            exact ⟨h1, h2, h3s, hnb, by rw [hnb]; exact h4.1,
              by rw [hnb]; exact h4.2⟩
          · rintro ⟨-, -, -, hnb, -, -⟩
            rw [hnb]
        · rw [if_neg h4]
          constructor
          · intro hc
            exact absurd hc (by simp)
          · rintro ⟨-, -, -, hnb, hfe, hlt⟩
            rw [Bool.and_eq_true] at h4
            rw [hnb] at hfe hlt
            exact absurd ⟨hfe, hlt⟩ h4
    · rw [if_pos (by simp [Bool.eq_false_iff.mpr h2])]
      constructor
      · intro hc
        exact absurd hc (by simp)
      · rintro ⟨-, hpc, -⟩
        exact absurd hpc h2

/-- First-improvement order of the relocation scan: the accepted
neighbor comes from the first task (in the order of the bottleneck
station's task list) and, within it, the first destination station, for
which a candidate is accepted; everything scanned earlier was rejected.
-/
theorem lsTaskPass_eq_some_order (sc nb : ALWABPSolution)
    (h : lsTaskPass sc = some nb) :
    ∃ pre i post, tasksInWorst sc = pre ++ i :: post ∧
      (∀ j ∈ pre, ∀ s < sc.inst.num_workers, lsTaskCandidate sc j s = none) ∧
      ∃ s, s < sc.inst.num_workers ∧ lsTaskCandidate sc i s = some nb ∧
        ∀ s2 < s, lsTaskCandidate sc i s2 = none := by
  unfold lsTaskPass at h
  obtain ⟨pre, i, post, hsplit, hfx, hnone⟩ := List.findSome?_eq_some_iff.mp h
  refine ⟨pre, i, post, hsplit, ?_, ?_⟩
  · intro j hj s hs
    exact (List.findSome?_eq_none_iff.mp (hnone j hj)) s (List.mem_range.mpr hs)
  · obtain ⟨l1, sx, l2, hr, hfs, hpre⟩ := List.findSome?_eq_some_iff.mp hfx
    obtain ⟨hxlen, hxm, hl1⟩ := range_split hr
    refine ⟨sx, hxm, hfs, ?_⟩
    intro s2 hs2
    apply hpre
    rw [hl1]
    exact List.mem_range.mpr (by omega)

theorem lsTaskPass_eq_none_iff (sc : ALWABPSolution) :
    lsTaskPass sc = none ↔
      ∀ i ∈ tasksInWorst sc, ∀ s < sc.inst.num_workers,
        lsTaskCandidate sc i s = none := by
  unfold lsTaskPass
  rw [List.findSome?_eq_none_iff]
  constructor
  · intro h i hi s hs
    exact (List.findSome?_eq_none_iff.mp (h i hi)) s (List.mem_range.mpr hs)
  · intro h i hi
    rw [List.findSome?_eq_none_iff]
    intro s hs
    exact h i hi s (List.mem_range.mp hs)

/-- C7: `local_search_task_reassignment` returns its (evaluated) input
immediately when it is infeasible or has an infinite station time;
otherwise it works on the bottleneck station (maximal station time,
lowest index on ties), accepts relocation candidates exactly when the
precedence and destination-capability checks pass and the evaluated
neighbor is feasible and strictly better, takes the first such candidate
in task-then-station scan order, restarts after each accepted move, and
stops when no relocation is accepted. -/
theorem claim_C7 (sol : ALWABPSolution) (fuel : ℕ) :
    ((evaluate sol).is_feasible = false →
      local_search_task_reassignment (fuel + 1) sol = evaluate sol) ∧
    ((evaluate sol).station_times.any (fun q => q.isNone) = true →
      local_search_task_reassignment (fuel + 1) sol = evaluate sol) ∧
    (0 < sol.inst.num_workers →
      worstStation (evaluate sol) < sol.inst.num_workers ∧
      (∀ s < sol.inst.num_workers,
        floatLt ((evaluate sol).station_times.getD (worstStation (evaluate sol)) none)
          ((evaluate sol).station_times.getD s none) = false) ∧
      (∀ s < worstStation (evaluate sol),
        floatLt ((evaluate sol).station_times.getD s none)
          ((evaluate sol).station_times.getD (worstStation (evaluate sol)) none)
          = true)) ∧
    (∀ i s nb, lsTaskCandidate (evaluate sol) i s = some nb ↔
      ((s : ℤ) ≠ (evaluate sol).task_station_assignment.getD i 0 ∧
       check_precedence_feasibility (evaluate sol).inst
         ((evaluate sol).task_station_assignment.set i (s : ℤ)) = true ∧
       (getT (evaluate sol).inst
         ((evaluate sol).worker_station_assignment.getD s 0) i).isSome = true ∧
       nb = evaluate (mkSolution (evaluate sol).inst
         ((evaluate sol).task_station_assignment.set i (s : ℤ))
         (evaluate sol).worker_station_assignment) ∧
       nb.is_feasible = true ∧ solutionLt nb (evaluate sol) = true)) ∧
    (∀ nb, lsTaskPass (evaluate sol) = some nb →
      ∃ pre i post, tasksInWorst (evaluate sol) = pre ++ i :: post ∧
        (∀ j ∈ pre, ∀ s < sol.inst.num_workers,
          lsTaskCandidate (evaluate sol) j s = none) ∧
        ∃ s, s < sol.inst.num_workers ∧
          lsTaskCandidate (evaluate sol) i s = some nb ∧
          ∀ s2 < s, lsTaskCandidate (evaluate sol) i s2 = none) ∧
    (lsTaskPass (evaluate sol) = none ↔
      ∀ i ∈ tasksInWorst (evaluate sol), ∀ s < sol.inst.num_workers,
        lsTaskCandidate (evaluate sol) i s = none) ∧
    ((evaluate sol).is_feasible = true →
      (evaluate sol).station_times.any (fun q => q.isNone) = false →
      (lsTaskPass (evaluate sol) = none →
        local_search_task_reassignment (fuel + 1) sol = evaluate sol) ∧
      (∀ nb, lsTaskPass (evaluate sol) = some nb →
        local_search_task_reassignment (fuel + 1) sol
          = local_search_task_reassignment fuel nb)) := by
  refine ⟨fun h => ls_task_infeasible fuel sol h,
    fun h => ls_task_inf_station fuel sol h, ?_, ?_, ?_, ?_, ?_⟩
  · intro hm
    exact pyArgmax_spec (fun s => (evaluate sol).station_times.getD s none)
      sol.inst.num_workers hm
  · intro i s nb
    exact lsTaskCandidate_eq_some_iff (evaluate sol) i s nb
  · intro nb h
    exact lsTaskPass_eq_some_order (evaluate sol) nb h
  · exact lsTaskPass_eq_none_iff (evaluate sol)
  · intro hfe hany
    have h1 : ¬(evaluate sol).is_feasible = false := by rw [hfe]; simp
    have h2 : ¬(evaluate sol).station_times.any (fun q => q.isNone) = true := by
      rw [hany]; simp
    exact ⟨fun h3 => ls_task_pass_none fuel sol h1 h2 h3,
      fun nb h3 => ls_task_pass_some fuel sol nb h1 h2 h3⟩

/-- Witness for C7: on a precedence-violating (hence infeasible)
concrete solution, the local search returns its evaluated input at once.
-/
theorem claim_C7_witness :
    local_search_task_reassignment 1 (mkSolution instW [1, 0] [0, 1])
      = evaluate (mkSolution instW [1, 0] [0, 1]) :=
  (claim_C7 (mkSolution instW [1, 0] [0, 1]) 0).1 (by decide)

/-- C9: the solver is deterministic: with the same instance, parameters,
random-generator state and clock observations, two runs of `vns` return
identical (initial, best) pairs.  In this embedding the generator and
the clock are the only implicit state of the Python core, made explicit
as the `Rng` and `Clock` streams. -/
theorem claim_C9 (inst : ALWABPInstance) (max_iter k_max : ℕ) (tl : Option ℚ)
    (fuel : ℕ) (g1 g2 : Rng) (c1 c2 : Clock) (hg : g1 = g2) (hc : c1 = c2) :
    vns inst max_iter k_max tl fuel g1 c1 = vns inst max_iter k_max tl fuel g2 c2 := by
  rw [hg, hc]

/-- Witness for C9 at a concrete run. -/
theorem claim_C9_witness :
    vns instW 1 1 none 2 [0, 1, 2] [] = vns instW 1 1 none 2 [0, 1, 2] [] :=
  claim_C9 instW 1 1 none 2 [0, 1, 2] [0, 1, 2] [] [] rfl rfl

theorem vnsInner_eq_spec (lsFuel k_max : ℕ) (tl : Option ℚ) (start : ℚ)
    (s_init : ALWABPSolution) :
    ∀ fuel k s_current s_best g c,
      vnsInner lsFuel k_max tl start s_init fuel k s_current s_best g c
        = vnsSpecInner lsFuel k_max tl start s_init fuel k s_current s_best g c := by
  intro fuel
  induction fuel with
  | zero => intro k cur best g c; rfl
  | succ f ih =>
    intro k cur best g c
    by_cases hk : k_max < k
    · have h1 : vnsInner lsFuel k_max tl start s_init (f + 1) k cur best g c
          = Sum.inr (cur, best, g, c) := by
        unfold vnsInner
        rw [if_pos hk]
      have h2 : vnsSpecInner lsFuel k_max tl start s_init (f + 1) k cur best g c
          = Sum.inr (cur, best, g, c) := by
        unfold vnsSpecInner
        rw [if_neg (by omega)]
      rw [h1, h2]
    · have hk2 : k ≤ k_max := by omega
      unfold vnsInner vnsSpecInner
      rw [if_neg hk, if_pos hk2]
      dsimp only
      by_cases ht : (vnsCheckTime tl start c).1 = true
      · rw [if_pos ht, if_pos ht]
      · rw [if_neg ht, if_neg ht]
        by_cases himp :
            solutionLt (vnd lsFuel (shaking cur k g).1) cur = true
        · rw [if_pos himp, if_pos himp]
          exact ih ..
        · rw [if_neg himp, if_neg himp]
          exact ih ..

theorem vnsOuter_eq_spec (innerFuel lsFuel k_max : ℕ) (tl : Option ℚ)
    (start : ℚ) (s_init : ALWABPSolution) :
    ∀ iters iteration max_iter cur best g c, iters = max_iter - iteration →
      vnsOuter innerFuel lsFuel k_max tl start s_init iters cur best g c
        = vnsSpecOuter innerFuel lsFuel k_max tl start s_init iteration max_iter
            cur best g c := by
  intro iters
  induction iters with
  | zero =>
    intro iteration max_iter cur best g c hz
    unfold vnsSpecOuter
    rw [if_neg (by omega)]
    rfl
  | succ it ih =>
    intro iteration max_iter cur best g c hz
    have hlt : iteration < max_iter := by omega
    unfold vnsOuter vnsSpecOuter
    rw [if_pos hlt]
    dsimp only
    by_cases ht : (vnsCheckTime tl start c).1 = true
    · rw [if_pos ht, if_pos ht]
    · rw [if_neg ht, if_neg ht]
      rw [vnsInner_eq_spec]
      cases hres : vnsSpecInner lsFuel k_max tl start s_init innerFuel 1 cur best g
          (vnsCheckTime tl start c).2 with
      | inl p => rfl
      | inr st =>
        exact ih (iteration + 1) max_iter st.1 st.2.1 st.2.2.1 st.2.2.2 (by omega)

theorem vns_eq_vnsSpec (inst : ALWABPInstance) (max_iter k_max : ℕ)
    (tl : Option ℚ) (fuel : ℕ) (g : Rng) (c : Clock) :
    vns inst max_iter k_max tl fuel g c = vnsSpec inst max_iter k_max tl fuel g c := by
  unfold vns vnsSpec
  dsimp only
  exact vnsOuter_eq_spec fuel fuel k_max tl _ _ max_iter 0 max_iter _ _ _ _
    (by omega)

theorem vnsInner_inv (lsFuel k_max : ℕ) (tl : Option ℚ) (start : ℚ)
    (s_init : ALWABPSolution) :
    ∀ fuel k cur best g c,
      (best = s_init ∨ solutionLt best s_init = true) →
      (∀ p, vnsInner lsFuel k_max tl start s_init fuel k cur best g c = Sum.inl p →
        p.1 = s_init ∧ (p.2 = s_init ∨ solutionLt p.2 s_init = true)) ∧
      (∀ st, vnsInner lsFuel k_max tl start s_init fuel k cur best g c = Sum.inr st →
        st.2.1 = s_init ∨ solutionLt st.2.1 s_init = true) := by
  intro fuel
  induction fuel with
  | zero =>
    intro k cur best g c hQ
    constructor
    · intro p hp
      simp [vnsInner] at hp
    · intro st hst
      simp only [vnsInner, Sum.inr.injEq] at hst
      rw [← hst]
      exact hQ
  | succ f ih =>
    intro k cur best g c hQ
    unfold vnsInner
    by_cases hk : k_max < k
    · rw [if_pos hk]
      constructor
      · intro p hp
        simp at hp
      · intro st hst
        simp only [Sum.inr.injEq] at hst
        rw [← hst]
        exact hQ
    · rw [if_neg hk]
      dsimp only
      by_cases ht : (vnsCheckTime tl start c).1 = true
      · rw [if_pos ht]
        constructor
        · intro p hp
          simp only [Sum.inl.injEq] at hp
          rw [← hp]
          exact ⟨rfl, hQ⟩
        · intro st hst
          simp at hst
      · rw [if_neg ht]
        by_cases himp :
            solutionLt (vnd lsFuel (shaking cur k g).1) cur = true
        · rw [if_pos himp]
          apply ih
          by_cases hb : solutionLt (vnd lsFuel (shaking cur k g).1) best = true
          · rw [if_pos hb]
            rcases hQ with hQ | hQ
            · right
              rw [← hQ]
              exact hb
            · right
              exact solutionLt_trans hb hQ
          · rw [if_neg hb]
            exact hQ
        · rw [if_neg himp]
          exact ih (k + 1) cur best (shaking cur k g).2 (vnsCheckTime tl start c).2 hQ

theorem vnsOuter_inv (innerFuel lsFuel k_max : ℕ) (tl : Option ℚ)
    (start : ℚ) (s_init : ALWABPSolution) :
    ∀ iters cur best g c,
      (best = s_init ∨ solutionLt best s_init = true) →
      (vnsOuter innerFuel lsFuel k_max tl start s_init iters cur best g c).1
          = s_init ∧
      ((vnsOuter innerFuel lsFuel k_max tl start s_init iters cur best g c).2
          = s_init ∨
        solutionLt
          (vnsOuter innerFuel lsFuel k_max tl start s_init iters cur best g c).2
          s_init = true) := by
  intro iters
  induction iters with
  | zero =>
    intro cur best g c hQ
    exact ⟨rfl, hQ⟩
  | succ it ih =>
    intro cur best g c hQ
    unfold vnsOuter
    dsimp only
    by_cases ht : (vnsCheckTime tl start c).1 = true
    · rw [if_pos ht]
      exact ⟨rfl, hQ⟩
    · rw [if_neg ht]
      cases hres : vnsInner lsFuel k_max tl start s_init innerFuel 1 cur best g
          (vnsCheckTime tl start c).2 with
      | inl p =>
        have := ((vnsInner_inv lsFuel k_max tl start s_init innerFuel 1 cur best g
          (vnsCheckTime tl start c).2 hQ).1) p hres
        exact this
      | inr st =>
        have hQ2 := ((vnsInner_inv lsFuel k_max tl start s_init innerFuel 1 cur best g
          (vnsCheckTime tl start c).2 hQ).2) st hres
        exact ih st.1 st.2.1 st.2.2.1 st.2.2.2 hQ2

/-- C4: the VNS driver implements exactly the specified state machine —
it equals the loop written from the specification text (inner loop over
`k = 1..k_max` with time re-checks, shake-then-VND, acceptance `s'' <
current` with `k` reset and conditional best update, else `k + 1`, at
most `max_iter` outer iterations, immediate termination on time-limit
expiry) — its first component is the multi-start initial solution, and
the returned best is never worse than that initial solution. -/
theorem claim_C4 (inst : ALWABPInstance) (max_iter k_max : ℕ) (tl : Option ℚ)
    (fuel : ℕ) (g : Rng) (c : Clock) :
    vns inst max_iter k_max tl fuel g c = vnsSpec inst max_iter k_max tl fuel g c ∧
    (vns inst max_iter k_max tl fuel g c).1
      = (generate_initial_solution_multi inst 3 g).1.getD (mkSolution inst [] []) ∧
    ((vns inst max_iter k_max tl fuel g c).2
        = (vns inst max_iter k_max tl fuel g c).1 ∨
      solutionLt (vns inst max_iter k_max tl fuel g c).2
        (vns inst max_iter k_max tl fuel g c).1 = true) := by
  have hinv := vnsOuter_inv fuel fuel k_max tl (readClock c).1
    ((generate_initial_solution_multi inst 3 g).1.getD (mkSolution inst [] []))
    max_iter
    ((generate_initial_solution_multi inst 3 g).1.getD (mkSolution inst [] []))
    ((generate_initial_solution_multi inst 3 g).1.getD (mkSolution inst [] []))
    (generate_initial_solution_multi inst 3 g).2 (readClock c).2 (Or.inl rfl)
  have hv : vns inst max_iter k_max tl fuel g c
      = vnsOuter fuel fuel k_max tl (readClock c).1
          ((generate_initial_solution_multi inst 3 g).1.getD (mkSolution inst [] []))
          max_iter
          ((generate_initial_solution_multi inst 3 g).1.getD (mkSolution inst [] []))
          ((generate_initial_solution_multi inst 3 g).1.getD (mkSolution inst [] []))
          (generate_initial_solution_multi inst 3 g).2 (readClock c).2 := rfl
  refine ⟨vns_eq_vnsSpec inst max_iter k_max tl fuel g c, ?_, ?_⟩
  · rw [hv]
    exact hinv.1
  · rw [hv]
    rw [hinv.1]
    exact hinv.2

theorem countP_and_le (l : List α) (p q : α → Bool) :
    l.countP (fun x => p x && q x) ≤ l.countP p :=
  List.countP_mono_left (fun x _ hx => by
    rw [Bool.and_eq_true] at hx
    exact hx.1)

theorem countP_eq_imp (l : List α) (p q : α → Bool)
    (h : l.countP p = l.countP (fun x => p x && q x)) :
    ∀ x ∈ l, p x = true → q x = true := by
  induction l with
  | nil => intro x hx; simp at hx
  | cons a l ih =>
    intro x hx hpx
    rw [List.countP_cons, List.countP_cons] at h
    cases hpa : p a with
    | false =>
      rw [hpa] at h
      simp only [Bool.false_and, if_false] at h
      rcases List.mem_cons.mp hx with rfl | hxl
      · rw [hpa] at hpx
        exact absurd hpx (by simp)
      · exact ih (by omega) x hxl hpx
    | true =>
      cases hqa : q a with
      | true =>
        rw [hpa, hqa] at h
        simp only [Bool.and_self, if_true] at h
        rcases List.mem_cons.mp hx with rfl | hxl
        · exact hqa
        · exact ih (by omega) x hxl hpx
      | false =>
        rw [hpa, hqa] at h
        simp at h
        have := countP_and_le l p q
        omega
  
theorem countP_lt_exists (l : List α) (p q : α → Bool)
    (h : l.countP (fun x => p x && q x) < l.countP p) :
    ∃ x ∈ l, p x = true ∧ q x = false := by
  by_contra hc
  push_neg at hc
  have hm : ∀ x ∈ l, p x = true → (p x && q x) = true := by
    intro x hx hp
    have := hc x hx hp
    rw [hp, Bool.ne_false_iff.mp this]
    rfl
  have := List.countP_mono_left hm
  omega

theorem countP_or_disjoint (l : List α) (p q : α → Bool)
    (hd : ∀ x ∈ l, ¬(p x = true ∧ q x = true)) :
    l.countP (fun x => p x || q x) = l.countP p + l.countP q := by
  induction l with
  | nil => simp
  | cons a l ih =>
    have hda := hd a (List.mem_cons_self _ _)
    have ihl := ih (fun x hx => hd x (List.mem_cons_of_mem _ hx))
    rw [List.countP_cons, List.countP_cons, List.countP_cons, ihl]
    cases hpa : p a <;> cases hqa : q a <;> simp_all <;> omega

/-- The number of precedence edges into 0-based task `j`. -/
def cntAll (inst : ALWABPInstance) (j : ℕ) : ℕ :=
  inst.precedences.countP (fun p => p.2 == j + 1)

/-- The number of precedence edges into `j` whose (0-based) source lies
in `T`. -/
def cntFrom (inst : ALWABPInstance) (T : List ℕ) (j : ℕ) : ℕ :=
  inst.precedences.countP (fun p => p.2 == j + 1 && decide ((p.1 - 1) ∈ T))

theorem predecessorsOf_length (inst : ALWABPInstance) (j : ℕ) :
    (predecessorsOf inst (j + 1)).length = cntAll inst j := by
  unfold predecessorsOf cntAll
  rw [List.length_map, List.countP_eq_length_filter]

theorem cntFrom_nil (inst : ALWABPInstance) (j : ℕ) :
    cntFrom inst [] j = 0 := by
  unfold cntFrom
  rw [List.countP_eq_length_filter]
  simp

theorem cntFrom_le (inst : ALWABPInstance) (T : List ℕ) (j : ℕ) :
    cntFrom inst T j ≤ cntAll inst j :=
  countP_and_le _ _ _

theorem succs_count (inst : ALWABPInstance) (i j : ℕ) :
    (successorsOf inst (i + 1)).count (j + 1)
      = inst.precedences.countP (fun p => p.2 == j + 1 && p.1 == i + 1) := by
  unfold successorsOf
  rw [List.count_eq_countP, List.countP_map, List.countP_filter]
  apply List.countP_congr
  intro x hx
  simp [Function.comp]

theorem cntFrom_concat (inst : ALWABPInstance) (hw : InstWF inst)
    (T : List ℕ) (i j : ℕ) (hiT : i ∉ T) :
    cntFrom inst (T ++ [i]) j
      = cntFrom inst T j
        + inst.precedences.countP (fun p => p.2 == j + 1 && p.1 == i + 1) := by
  unfold cntFrom
  have hcongr : inst.precedences.countP
      (fun p => p.2 == j + 1 && decide ((p.1 - 1) ∈ T ++ [i]))
      = inst.precedences.countP
        (fun p => (p.2 == j + 1 && decide ((p.1 - 1) ∈ T))
          || (p.2 == j + 1 && p.1 == i + 1)) := by
    apply List.countP_congr
    intro p hp
    have hp1 := (hw.prec_fst p hp).1
    constructor
    · intro hx
      rw [Bool.and_eq_true] at hx
      obtain ⟨h2, hmem⟩ := hx
      rw [decide_eq_true_eq, List.mem_append, List.mem_singleton] at hmem
      rcases hmem with hm | hm
      · simp only [Bool.or_eq_true, Bool.and_eq_true]
        exact Or.inl ⟨h2, by simpa using hm⟩
      · simp only [Bool.or_eq_true, Bool.and_eq_true, beq_iff_eq]
        exact Or.inr ⟨by simpa using h2, by omega⟩
    · intro hx
      simp only [Bool.or_eq_true, Bool.and_eq_true, decide_eq_true_eq,
        beq_iff_eq] at hx
      simp only [Bool.and_eq_true, decide_eq_true_eq, List.mem_append,
        List.mem_singleton, beq_iff_eq]
      rcases hx with ⟨h2, hm⟩ | ⟨h2, hm⟩
      · exact ⟨h2, Or.inl hm⟩
      · exact ⟨h2, Or.inr (by omega)⟩
  rw [hcongr]
  apply countP_or_disjoint
  intro p hp hand
  obtain ⟨h1, h2⟩ := hand
  rw [Bool.and_eq_true, decide_eq_true_eq] at h1
  rw [Bool.and_eq_true] at h2
  have : p.1 - 1 = i := by
    have := h2.2
    rw [beq_iff_eq] at this
    omega
  exact hiT (this ▸ h1.2)

/-- `topo` is topologically ordered: every precedence edge into a task
of `topo` comes from a task strictly earlier in `topo`. -/
def TopoPrefixOrdered (inst : ALWABPInstance) (topo : List ℕ) : Prop :=
  ∀ t1 j t2, topo = t1 ++ j :: t2 →
    ∀ p ∈ inst.precedences, p.2 = j + 1 → (p.1 - 1) ∈ t1

/-- Loop invariant of Kahn's algorithm in `generate_initial_solution`. -/
structure KahnInv (inst : ALWABPInstance) (nd : List ℤ)
    (queue topo : List ℕ) : Prop where
  nd_len : nd.length = inst.num_tasks
  topo_nodup : topo.Nodup
  queue_nodup : queue.Nodup
  queue_disj : ∀ x ∈ queue, x ∉ topo
  topo_lt : ∀ x ∈ topo, x < inst.num_tasks
  queue_lt : ∀ x ∈ queue, x < inst.num_tasks
  count : ∀ j < inst.num_tasks,
    nd.getD j 0 = (cntAll inst j : ℤ) - (cntFrom inst topo j : ℤ)
  zero_mem : ∀ j < inst.num_tasks, nd.getD j 0 = 0 → j ∈ topo ∨ j ∈ queue
  queue_zero : ∀ j ∈ queue, nd.getD j 0 = 0
  ordered : TopoPrefixOrdered inst topo

/-- Invariant holding while the successors of the popped task `i` are
being processed; `T` is the topological order before `i` was appended
and `P` the prefix of `i`'s successor list already handled. -/
structure PassInv (inst : ALWABPInstance) (T : List ℕ) (i : ℕ) (P : List ℕ)
    (nd : List ℤ) (q : List ℕ) : Prop where
  nd_len : nd.length = inst.num_tasks
  count : ∀ j < inst.num_tasks,
    nd.getD j 0 = (cntAll inst j : ℤ) - (cntFrom inst T j : ℤ)
      - (P.count (j + 1) : ℤ)
  q_nodup : q.Nodup
  q_mem : ∀ x ∈ q, x < inst.num_tasks ∧ x ∉ T ∧ x ≠ i
  q_zero : ∀ j ∈ q, nd.getD j 0 = 0
  zero_mem : ∀ j < inst.num_tasks, nd.getD j 0 = 0 → j ∈ T ∨ j = i ∨ j ∈ q
  i_nonpos : nd.getD i 0 ≤ 0

theorem successorsOf_mem (inst : ALWABPInstance) (i1 j1 : ℕ)
    (h : j1 ∈ successorsOf inst i1) :
    ∃ p ∈ inst.precedences, p.1 = i1 ∧ p.2 = j1 := by
  unfold successorsOf at h
  obtain ⟨p, hp, rfl⟩ := List.mem_map.mp h
  obtain ⟨hpE, hp1⟩ := List.mem_filter.mp hp
  exact ⟨p, hpE, by simpa using hp1, rfl⟩

theorem passInv_step (inst : ALWABPInstance) (hw : InstWF inst)
    (T : List ℕ) (i : ℕ) (hiT : i ∉ T) (hord : TopoPrefixOrdered inst T)
    (P : List ℕ) (nd : List ℤ) (q : List ℕ)
    (hinv : PassInv inst T i P nd q)
    (j1 : ℕ) (hj1 : j1 ∈ successorsOf inst (i + 1))
    (hcnt : P.count j1 + 1 ≤ (successorsOf inst (i + 1)).count j1) :
    PassInv inst T i (P ++ [j1]) (kahnStep nd q j1).1 (kahnStep nd q j1).2 := by
  obtain ⟨p0, hp0E, hp01, hp02⟩ := successorsOf_mem inst (i + 1) j1 hj1
  have hj1b := hw.prec_snd p0 hp0E
  have hj1ge : 1 ≤ j1 := by omega
  have hj1le : j1 ≤ inst.num_tasks := by omega
  have hjn : j1 - 1 < inst.num_tasks := by omega
  have hjlen : j1 - 1 < nd.length := by rw [hinv.nd_len]; exact hjn
  have hv := hinv.count (j1 - 1) hjn
  have hget : (nd.set (j1 - 1) (nd.getD (j1 - 1) 0 - 1)).getD (j1 - 1) 0
      = nd.getD (j1 - 1) 0 - 1 := getD_set_self _ _ _ _ hjlen
  have hgetne : ∀ x, x ≠ j1 - 1 →
      (nd.set (j1 - 1) (nd.getD (j1 - 1) 0 - 1)).getD x 0 = nd.getD x 0 := by
    intro x hx
    exact getD_set_ne _ _ _ _ _ (fun h => hx h.symm)
  have hcount' : ∀ j'' < inst.num_tasks,
      (nd.set (j1 - 1) (nd.getD (j1 - 1) 0 - 1)).getD j'' 0
        = (cntAll inst j'' : ℤ) - (cntFrom inst T j'' : ℤ)
          - ((P ++ [j1]).count (j'' + 1) : ℤ) := by
    intro j'' hj''
    by_cases he : j'' = j1 - 1
    · rw [he, hget, hv]
      have hc1 : (P ++ [j1]).count (j1 - 1 + 1) = P.count (j1 - 1 + 1) + 1 := by
        rw [List.count_append]
        have h2 : j1 - 1 + 1 = j1 := by omega
        rw [h2]
        simp
      rw [hc1]
      push_cast
      ring
    · rw [hgetne j'' he]
      have hc0 : (P ++ [j1]).count (j'' + 1) = P.count (j'' + 1) := by
        rw [List.count_append]
        have : j'' + 1 ≠ j1 := by omega
        simp [List.count_singleton', this]
      rw [hc0]
      exact hinv.count j'' hj''
  by_cases hji : j1 - 1 = i
  · -- self-loop occurrence: the popped task's own in-degree goes negative
    have hvle : nd.getD (j1 - 1) 0 ≤ 0 := by rw [hji]; exact hinv.i_nonpos
    have hstep : kahnStep nd q j1
        = (nd.set (j1 - 1) (nd.getD (j1 - 1) 0 - 1), q) := by
      unfold kahnStep
      dsimp only
      rw [if_neg]
      rintro ⟨-, hc⟩
      rw [hget] at hc
      omega
    rw [hstep]
    refine ⟨by simpa using hinv.nd_len, hcount', hinv.q_nodup, hinv.q_mem,
      ?_, ?_, ?_⟩
    · intro x hx
      have hxne : x ≠ j1 - 1 := by
        have := (hinv.q_mem x hx).2.2
        omega
      rw [hgetne x hxne]
      exact hinv.q_zero x hx
    · intro j'' hj'' hz
      by_cases he : j'' = j1 - 1
      · subst he
        rw [hget] at hz
        omega
      · rw [hgetne j'' he] at hz
        exact hinv.zero_mem j'' hj'' hz
    · rw [← hji] at hinv ⊢
      rw [hget]
      omega
  · -- a genuine successor: its in-degree is still positive
    have hjT : j1 - 1 ∉ T := by
      intro hmem
      obtain ⟨t1, t2, hdec⟩ := List.append_of_mem hmem
      have := hord t1 (j1 - 1) t2 hdec p0 hp0E (by omega)
      rw [hp01] at this
      simp only [Nat.add_sub_cancel] at this
      exact hiT (hdec ▸ List.mem_append_left _ this)
    have hdisj : ∀ p ∈ inst.precedences,
        ¬((p.2 == j1 - 1 + 1 && decide ((p.1 - 1) ∈ T)) = true ∧
          (p.2 == j1 - 1 + 1 && p.1 == i + 1) = true) := by
      rintro p hp ⟨h1, h2⟩
      rw [Bool.and_eq_true, decide_eq_true_eq] at h1
      rw [Bool.and_eq_true, beq_iff_eq, beq_iff_eq] at h2
      rw [h2.2] at h1
      simp only [Nat.add_sub_cancel] at h1
      exact hiT h1.2
    have hle1 : cntFrom inst T (j1 - 1)
        + inst.precedences.countP (fun p => p.2 == j1 - 1 + 1 && p.1 == i + 1)
        ≤ cntAll inst (j1 - 1) := by
      unfold cntFrom cntAll
      rw [← countP_or_disjoint _ _ _ hdisj]
      apply List.countP_mono_left
      intro p _ hp
      rw [Bool.or_eq_true, Bool.and_eq_true, Bool.and_eq_true] at hp
      rcases hp with h | h
      · exact h.1
      · exact h.1
    have hge : P.count j1 + 1
        ≤ inst.precedences.countP (fun p => p.2 == j1 - 1 + 1 && p.1 == i + 1) := by
      have hs := succs_count inst i (j1 - 1)
      rw [← hs]
      have hj1e : j1 - 1 + 1 = j1 := by omega
      rw [hj1e]
      exact hcnt
    have hv1 : 1 ≤ nd.getD (j1 - 1) 0 := by
      have hj1e : j1 - 1 + 1 = j1 := by omega
      rw [hv, hj1e]
      have := cntFrom_le inst T (j1 - 1)
      omega
    by_cases hveq : nd.getD (j1 - 1) 0 = 1
    · -- the in-degree reaches zero: the task is enqueued
      have hjq : j1 - 1 ∉ q := by
        intro hq
        have := hinv.q_zero _ hq
        omega
      have hstep : kahnStep nd q j1
          = (nd.set (j1 - 1) (nd.getD (j1 - 1) 0 - 1), q ++ [j1 - 1]) := by
        unfold kahnStep
        dsimp only
        rw [if_pos ⟨hjlen, by rw [hget]; omega⟩]
      rw [hstep]
      refine ⟨by simpa using hinv.nd_len, hcount', ?_, ?_, ?_, ?_, ?_⟩
      · exact List.Nodup.append hinv.q_nodup (List.nodup_singleton _)
          (fun a ha hb => by
            rw [List.mem_singleton] at hb
            exact hjq (hb ▸ ha))
      · intro x hx
        rcases List.mem_append.mp hx with h | h
        · exact hinv.q_mem x h
        · rw [List.mem_singleton] at h
          subst h
          exact ⟨hjn, hjT, hji⟩
      · intro x hx
        rcases List.mem_append.mp hx with h | h
        · have hxne : x ≠ j1 - 1 := fun he => hjq (he ▸ h)
          rw [hgetne x hxne]
          exact hinv.q_zero x h
        · rw [List.mem_singleton] at h
          subst h
          rw [hget]
          omega
      · intro j'' hj'' hz
        by_cases he : j'' = j1 - 1
        · subst he
          exact Or.inr (Or.inr (List.mem_append_right _ (List.mem_singleton.mpr rfl)))
        · rw [hgetne j'' he] at hz
          rcases hinv.zero_mem j'' hj'' hz with h | h | h
          · exact Or.inl h
          · exact Or.inr (Or.inl h)
          · exact Or.inr (Or.inr (List.mem_append_left _ h))
      · rw [hgetne i (fun he => hji he.symm)]
        exact hinv.i_nonpos
    · -- the in-degree stays positive: nothing is enqueued
      have hstep : kahnStep nd q j1
          = (nd.set (j1 - 1) (nd.getD (j1 - 1) 0 - 1), q) := by
        unfold kahnStep
        dsimp only
        rw [if_neg]
        rintro ⟨-, hc⟩
        rw [hget] at hc
        omega
      rw [hstep]
      refine ⟨by simpa using hinv.nd_len, hcount', hinv.q_nodup, hinv.q_mem,
        ?_, ?_, ?_⟩
      · intro x hx
        have hxne : x ≠ j1 - 1 := by
          intro he
          have := hinv.q_zero x hx
          rw [he] at this
          omega
        rw [hgetne x hxne]
        exact hinv.q_zero x hx
      · intro j'' hj'' hz
        by_cases he : j'' = j1 - 1
        · subst he
          rw [hget] at hz
          omega
        · rw [hgetne j'' he] at hz
          exact hinv.zero_mem j'' hj'' hz
      · rw [hgetne i (fun he => hji he.symm)]
        exact hinv.i_nonpos

theorem passInv_run (inst : ALWABPInstance) (hw : InstWF inst)
    (T : List ℕ) (i : ℕ) (hiT : i ∉ T) (hord : TopoPrefixOrdered inst T) :
    ∀ rem P nd q, successorsOf inst (i + 1) = P ++ rem →
      PassInv inst T i P nd q →
      PassInv inst T i (successorsOf inst (i + 1))
        (kahnProcess rem nd q).1 (kahnProcess rem nd q).2 := by
  intro rem
  induction rem with
  | nil =>
    intro P nd q hdec hinv
    rw [List.append_nil] at hdec
    simp only [kahnProcess, List.foldl_nil]
    rw [hdec]
    exact hinv
  | cons j1 rest ih =>
    intro P nd q hdec hinv
    have hj1 : j1 ∈ successorsOf inst (i + 1) := by
      rw [hdec]
      exact List.mem_append_right _ (List.mem_cons_self _ _)
    have hcnt : P.count j1 + 1 ≤ (successorsOf inst (i + 1)).count j1 := by
      rw [hdec, List.count_append, List.count_cons_self]
      omega
    have hstep := passInv_step inst hw T i hiT hord P nd q hinv j1 hj1 hcnt
    have hproc : kahnProcess (j1 :: rest) nd q
        = kahnProcess rest (kahnStep nd q j1).1 (kahnStep nd q j1).2 := rfl
    rw [hproc]
    exact ih (P ++ [j1]) _ _ (by rw [hdec]; simp) hstep

theorem concat_decomp {l t1 t2 : List ℕ} {a j : ℕ}
    (h : l ++ [a] = t1 ++ j :: t2) :
    (t1 = l ∧ j = a ∧ t2 = []) ∨
      ∃ t2', t2 = t2' ++ [a] ∧ l = t1 ++ j :: t2' := by
  rcases List.eq_nil_or_concat t2 with rfl | ⟨t2', x, rfl⟩
  · have hlen : l.length = t1.length := by
      have := congrArg List.length h
      simp at this
      omega
    obtain ⟨h1, h2⟩ := List.append_inj h hlen
    simp only [List.cons.injEq] at h2
    exact Or.inl ⟨h1.symm, h2.1.symm, rfl⟩
  · have h' : l ++ [a] = (t1 ++ j :: t2') ++ [x] := by
      rw [h]
      simp
    have hlen : l.length = (t1 ++ j :: t2').length := by
      have := congrArg List.length h'
      simp at this
      simp
      omega
    obtain ⟨h1, h2⟩ := List.append_inj h' hlen
    simp only [List.cons.injEq] at h2
    exact Or.inr ⟨t2', by rw [h2.1, List.concat_eq_append], h1⟩

theorem kahnInv_pop (inst : ALWABPInstance) (hw : InstWF inst)
    (nd : List ℤ) (i : ℕ) (rest topo : List ℕ)
    (hinv : KahnInv inst nd (i :: rest) topo) :
    KahnInv inst (kahnProcess (successorsOf inst (i + 1)) nd rest).1
      (kahnProcess (successorsOf inst (i + 1)) nd rest).2 (topo ++ [i]) := by
  have hiq : i ∈ i :: rest := List.mem_cons_self _ _
  have hin : i < inst.num_tasks := hinv.queue_lt i hiq
  have hiT : i ∉ topo := hinv.queue_disj i hiq
  have hizero : nd.getD i 0 = 0 := hinv.queue_zero i hiq
  have hallin : ∀ p ∈ inst.precedences, p.2 = i + 1 → (p.1 - 1) ∈ topo := by
    have hc := hinv.count i hin
    rw [hizero] at hc
    have hle := cntFrom_le inst topo i
    have heq : cntAll inst i = cntFrom inst topo i := by omega
    intro p hp h2
    have := countP_eq_imp inst.precedences (fun p => p.2 == i + 1)
      (fun p => decide ((p.1 - 1) ∈ topo)) (by
        unfold cntAll cntFrom at heq
        exact heq) p hp (by simp [h2])
    simpa using this
  have hqset := List.nodup_cons.mp hinv.queue_nodup
  have hpass0 : PassInv inst topo i [] nd rest :=
    { nd_len := hinv.nd_len
      count := fun j hj => by
        rw [hinv.count j hj]
        simp
      q_nodup := hqset.2
      q_mem := fun x hx =>
        ⟨hinv.queue_lt x (List.mem_cons_of_mem _ hx),
         hinv.queue_disj x (List.mem_cons_of_mem _ hx),
         fun he => hqset.1 (he ▸ hx)⟩
      q_zero := fun j hj => hinv.queue_zero j (List.mem_cons_of_mem _ hj)
      zero_mem := fun j hj hz => by
        rcases hinv.zero_mem j hj hz with h | h
        · exact Or.inl h
        · rcases List.mem_cons.mp h with h | h
          · exact Or.inr (Or.inl h)
          · exact Or.inr (Or.inr h)
      i_nonpos := by rw [hizero] }
  have hrun := passInv_run inst hw topo i hiT hinv.ordered
    (successorsOf inst (i + 1)) [] nd rest (by simp) hpass0
  refine
    { nd_len := hrun.nd_len
      topo_nodup := ?_
      queue_nodup := hrun.q_nodup
      queue_disj := ?_
      topo_lt := ?_
      queue_lt := fun x hx => (hrun.q_mem x hx).1
      count := ?_
      zero_mem := ?_
      queue_zero := hrun.q_zero
      ordered := ?_ }
  · exact List.Nodup.append hinv.topo_nodup (List.nodup_singleton _)
      (fun a ha hb => by
        rw [List.mem_singleton] at hb
        exact hiT (hb ▸ ha))
  · intro x hx
    obtain ⟨-, hxT, hxi⟩ := hrun.q_mem x hx
    intro hmem
    rcases List.mem_append.mp hmem with h | h
    · exact hxT h
    · rw [List.mem_singleton] at h
      exact hxi h
  · intro x hx
    rcases List.mem_append.mp hx with h | h
    · exact hinv.topo_lt x h
    · rw [List.mem_singleton] at h
      exact h ▸ hin
  · intro j hj
    rw [hrun.count j hj]
    rw [cntFrom_concat inst hw topo i j hiT, succs_count inst i j]
    push_cast
    ring
  · intro j hj hz
    rcases hrun.zero_mem j hj hz with h | h | h
    · exact Or.inl (List.mem_append_left _ h)
    · exact Or.inl (List.mem_append_right _ (List.mem_singleton.mpr h))
    · exact Or.inr h
  · intro t1 j t2 hdec p hp h2
    rcases concat_decomp hdec with ⟨ht1, hji, -⟩ | ⟨t2', -, hl⟩
    · rw [ht1]
      exact hallin p hp (by rw [h2, hji])
    · exact hinv.ordered t1 j t2' hl p hp h2

/-- Everything the final topological order of Kahn's loop satisfies:
no duplicates, all tasks in range, topologically ordered, and every
unprocessed task keeps an unprocessed predecessor. -/
def KahnResultGood (inst : ALWABPInstance) (topo : List ℕ) : Prop :=
  topo.Nodup ∧ (∀ x ∈ topo, x < inst.num_tasks) ∧ TopoPrefixOrdered inst topo ∧
  ∀ j < inst.num_tasks, j ∉ topo →
    ∃ p ∈ inst.precedences, p.2 = j + 1 ∧ (p.1 - 1) ∉ topo

theorem kahnLoop_good (inst : ALWABPInstance) (hw : InstWF inst) :
    ∀ N nd queue topo, kahnMeasure nd queue ≤ N →
      KahnInv inst nd queue topo →
      KahnResultGood inst (kahnLoop inst nd queue topo) := by
  intro N
  induction N with
  | zero =>
    intro nd queue topo hN hinv
    cases queue with
    | nil =>
      simp only [kahnLoop]
      refine ⟨hinv.topo_nodup, hinv.topo_lt, hinv.ordered, ?_⟩
      intro j hj hnot
      have hz : nd.getD j 0 ≠ 0 := by
        intro hz
        rcases hinv.zero_mem j hj hz with h | h
        · exact hnot h
        · simp at h
      have hc := hinv.count j hj
      have hlt : cntFrom inst topo j < cntAll inst j := by
        have := cntFrom_le inst topo j
        omega
      obtain ⟨p, hp, h1, h2⟩ := countP_lt_exists inst.precedences
        (fun p => p.2 == j + 1) (fun p => decide ((p.1 - 1) ∈ topo)) (by
          unfold cntAll cntFrom at hlt
          exact hlt)
      refine ⟨p, hp, by simpa using h1, by simpa using h2⟩
    | cons i rest =>
      exfalso
      simp [kahnMeasure] at hN
  | succ N ih =>
    intro nd queue topo hN hinv
    cases queue with
    | nil =>
      simp only [kahnLoop]
      refine ⟨hinv.topo_nodup, hinv.topo_lt, hinv.ordered, ?_⟩
      intro j hj hnot
      have hz : nd.getD j 0 ≠ 0 := by
        intro hz
        rcases hinv.zero_mem j hj hz with h | h
        · exact hnot h
        · simp at h
      have hc := hinv.count j hj
      have hlt : cntFrom inst topo j < cntAll inst j := by
        have := cntFrom_le inst topo j
        omega
      obtain ⟨p, hp, h1, h2⟩ := countP_lt_exists inst.precedences
        (fun p => p.2 == j + 1) (fun p => decide ((p.1 - 1) ∈ topo)) (by
          unfold cntAll cntFrom at hlt
          exact hlt)
      refine ⟨p, hp, by simpa using h1, by simpa using h2⟩
    | cons i rest =>
      have hpop := kahnInv_pop inst hw nd i rest topo hinv
      have hmeas : kahnMeasure (kahnProcess (successorsOf inst (i + 1)) nd rest).1
          (kahnProcess (successorsOf inst (i + 1)) nd rest).2 ≤ N := by
        have h1 := kahnProcess_measure (successorsOf inst (i + 1)) nd rest
        simp only [kahnMeasure, List.length_cons] at hN h1 ⊢
        omega
      have := ih _ _ _ hmeas hpop
      simpa only [kahnLoop] using this

theorem kahnInit (inst : ALWABPInstance) :
    KahnInv inst
      ((List.range inst.num_tasks).map
        (fun i => ((predecessorsOf inst (i + 1)).length : ℤ)))
      ((List.range inst.num_tasks).filter
        (fun i => ((List.range inst.num_tasks).map
          (fun i => ((predecessorsOf inst (i + 1)).length : ℤ))).getD i 0 == 0))
      [] := by
  set nd0 := (List.range inst.num_tasks).map
    (fun i => ((predecessorsOf inst (i + 1)).length : ℤ)) with hnd0
  have hget : ∀ j < inst.num_tasks,
      nd0.getD j 0 = ((predecessorsOf inst (j + 1)).length : ℤ) := by
    intro j hj
    rw [hnd0]
    exact getD_map_range _ _ _ _ hj
  refine
    { nd_len := by simp [hnd0]
      topo_nodup := List.nodup_nil
      queue_nodup := List.Nodup.filter _ (List.nodup_range _)
      queue_disj := fun x _ h => by simp at h
      topo_lt := fun x h => by simp at h
      queue_lt := fun x hx =>
        List.mem_range.mp (List.mem_filter.mp hx).1
      count := ?_
      zero_mem := ?_
      queue_zero := ?_
      ordered := fun t1 j t2 hdec => by
        exact absurd hdec (by simp) }
  · intro j hj
    rw [hget j hj, predecessorsOf_length, cntFrom_nil]
    simp
  · intro j hj hz
    right
    rw [List.mem_filter]
    exact ⟨List.mem_range.mpr hj, by simpa using hz⟩
  · intro j hj
    have := (List.mem_filter.mp hj).2
    simpa using this

theorem topoOrder_good (inst : ALWABPInstance) (hw : InstWF inst) :
    KahnResultGood inst (topoOrder inst) := by
  unfold topoOrder
  dsimp only
  exact kahnLoop_good inst hw _ _ _ _ (le_refl _) (kahnInit inst)

theorem exists_min_rank (f : ℕ → ℕ) (l : List ℕ) (h : l ≠ []) :
    ∃ a ∈ l, ∀ b ∈ l, f a ≤ f b := by
  induction l with
  | nil => exact absurd rfl h
  | cons x xs ih =>
    cases xs with
    | nil => exact ⟨x, List.mem_cons_self _ _, by simp⟩
    | cons y ys =>
      obtain ⟨a, ha, hmin⟩ := ih (by simp)
      by_cases hc : f x ≤ f a
      · refine ⟨x, List.mem_cons_self _ _, ?_⟩
        intro b hb
        rcases List.mem_cons.mp hb with rfl | hb
        · exact le_rfl
        · exact le_trans hc (hmin b hb)
      · refine ⟨a, List.mem_cons_of_mem _ ha, ?_⟩
        intro b hb
        rcases List.mem_cons.mp hb with rfl | hb
        · omega
        · exact hmin b hb

/-- The acyclicity hypothesis of C5, as the standard rank-function
characterization of a DAG. -/
def AcyclicPrec (inst : ALWABPInstance) : Prop :=
  ∃ rank : ℕ → ℕ, ∀ p ∈ inst.precedences, rank (p.1 - 1) < rank (p.2 - 1)

theorem topoOrder_complete (inst : ALWABPInstance) (hw : InstWF inst)
    (hacyc : AcyclicPrec inst) :
    (topoOrder inst).length = inst.num_tasks := by
  obtain ⟨rank, hrank⟩ := hacyc
  obtain ⟨hnodup, hlt, -, hstuck⟩ := topoOrder_good inst hw
  by_contra hne
  have hsub : topoOrder inst ⊆ List.range inst.num_tasks := by
    intro x hx
    exact List.mem_range.mpr (hlt x hx)
  have hlen : (topoOrder inst).length ≤ inst.num_tasks := by
    have := (hnodup.subperm hsub).length_le
    simpa using this
  have hmiss : ∃ j < inst.num_tasks, j ∉ topoOrder inst := by
    by_contra hall
    push_neg at hall
    have hsub2 : List.range inst.num_tasks ⊆ topoOrder inst := by
      intro x hx
      exact hall x (List.mem_range.mp hx)
    have := ((List.nodup_range inst.num_tasks).subperm hsub2).length_le
    simp at this
    omega
  obtain ⟨j0, hj0, hj0n⟩ := hmiss
  have hRne : (List.range inst.num_tasks).filter
      (fun j => decide (j ∉ topoOrder inst)) ≠ [] := by
    intro hc
    have : j0 ∈ (List.range inst.num_tasks).filter
        (fun j => decide (j ∉ topoOrder inst)) := by
      rw [List.mem_filter]
      exact ⟨List.mem_range.mpr hj0, by simpa using hj0n⟩
    rw [hc] at this
    simp at this
  obtain ⟨r, hrmem, hrmin⟩ := exists_min_rank rank _ hRne
  obtain ⟨hrrange, hrnot⟩ := List.mem_filter.mp hrmem
  have hrn := List.mem_range.mp hrrange
  have hrnot' : r ∉ topoOrder inst := by simpa using hrnot
  obtain ⟨p, hp, hp2, hp1not⟩ := hstuck r hrn hrnot'
  have hsrc : (p.1 - 1) ∈ (List.range inst.num_tasks).filter
      (fun j => decide (j ∉ topoOrder inst)) := by
    rw [List.mem_filter]
    have := (hw.prec_fst p hp)
    refine ⟨List.mem_range.mpr (by omega), by simpa using hp1not⟩
  have hmin := hrmin _ hsrc
  have := hrank p hp
  rw [hp2] at this
  simp only [Nat.add_sub_cancel] at this
  omega

theorem topoOrder_perm (inst : ALWABPInstance) (hw : InstWF inst)
    (hacyc : AcyclicPrec inst) :
    (topoOrder inst).Perm (List.range inst.num_tasks) := by
  obtain ⟨hnodup, hlt, -, -⟩ := topoOrder_good inst hw
  have hsub : topoOrder inst ⊆ List.range inst.num_tasks := by
    intro x hx
    exact List.mem_range.mpr (hlt x hx)
  have hsp := hnodup.subperm hsub
  have hlen := topoOrder_complete inst hw hacyc
  exact List.Subperm.perm_of_length_le hsp (by simp [hlen])

theorem find?_range_first {p : ℕ → Bool} {m s : ℕ}
    (h : (List.range m).find? p = some s) :
    s < m ∧ p s = true ∧ ∀ s' < s, p s' = false := by
  obtain ⟨hp, as, bs, hdec, hall⟩ := List.find?_eq_some.mp h
  obtain ⟨hslen, hsm, has⟩ := range_split hdec
  refine ⟨hsm, hp, ?_⟩
  intro s' hs'
  have : s' ∈ as := by
    rw [has]
    exact List.mem_range.mpr (by omega)
  have := hall s' this
  simpa using this

theorem getD_replicate_lt (n i : ℕ) (a d : ℤ) (h : i < n) :
    (List.replicate n a).getD i d = a := by
  rw [getD_eq_getElem _ _ _ (by simpa using h)]
  exact List.getElem_replicate ..

/-- What the greedy construction guarantees for an assigned task `x`:
a valid station whose worker is capable of `x`, with every predecessor
of `x` at a station no later than `x`'s. -/
def GoodAssign (inst : ALWABPInstance) (workers : List ℕ) (t : List ℤ)
    (x : ℕ) : Prop :=
  ∃ s : ℕ, s < inst.num_workers ∧ t.getD x 0 = (s : ℤ) ∧
    (getT inst (workers.getD s 0) x).isSome = true ∧
    ∀ p ∈ inst.precedences, p.2 = x + 1 → t.getD (p.1 - 1) 0 ≤ (s : ℤ)

theorem stationFor_spec (inst : ALWABPInstance) (workers : List ℕ)
    (t : List ℤ) (i s : ℕ) (h : stationFor inst workers t i = some s) :
    s < inst.num_workers ∧
    (getT inst (workers.getD s 0) i).isSome = true ∧
    (∀ p ∈ inst.precedences, p.2 = i + 1 → t.getD (p.1 - 1) 0 ≤ (s : ℤ)) ∧
    ∀ s' < s,
      ¬((getT inst (workers.getD s' 0) i).isSome = true ∧
        ∀ p ∈ inst.precedences, p.2 = i + 1 → t.getD (p.1 - 1) 0 ≤ (s' : ℤ)) := by
  unfold stationFor at h
  obtain ⟨hsm, hps, hfirst⟩ := find?_range_first h
  have hpred : ∀ s'' : ℕ,
      ((!(getT inst (workers.getD s'' 0) i).isNone &&
        (predecessorsOf inst (i + 1)).all
          (fun p1 => !decide ((s'' : ℤ) < t.getD (p1 - 1) 0))) = true) ↔
      ((getT inst (workers.getD s'' 0) i).isSome = true ∧
        ∀ p ∈ inst.precedences, p.2 = i + 1 → t.getD (p.1 - 1) 0 ≤ (s'' : ℤ)) := by
    intro s''
    rw [Bool.and_eq_true, List.all_eq_true]
    constructor
    · rintro ⟨h1, h2⟩
      constructor
      · cases hg : getT inst (workers.getD s'' 0) i
        · rw [hg] at h1
          simp at h1
        · rfl
      · intro p hp hp2
        have hmem : p.1 ∈ predecessorsOf inst (i + 1) := by
          unfold predecessorsOf
          exact List.mem_map.mpr ⟨p, List.mem_filter.mpr ⟨hp, by simp [hp2]⟩, rfl⟩
        have := h2 p.1 hmem
        simp only [Bool.not_eq_true', decide_eq_false_iff_not, not_lt] at this
        exact this
    · rintro ⟨h1, h2⟩
      constructor
      · cases hg : getT inst (workers.getD s'' 0) i
        · rw [hg] at h1
          simp at h1
        · simp [hg]
      · intro p1 hmem
        unfold predecessorsOf at hmem
        obtain ⟨p, hpf, rfl⟩ := List.mem_map.mp hmem
        obtain ⟨hpE, hp2⟩ := List.mem_filter.mp hpf
        have := h2 p hpE (by simpa using hp2)
        simp only [Bool.not_eq_true', decide_eq_false_iff_not, not_lt]
        exact this
  refine ⟨hsm, ?_, ?_, ?_⟩
  · exact ((hpred s).mp hps).1
  · exact ((hpred s).mp hps).2
  · intro s' hs' hc
    have := hfirst s' hs'
    rw [← hpred s'] at hc
    rw [this] at hc
    exact absurd hc (by simp)

theorem greedyLoop_inv (inst : ALWABPInstance) (hw : InstWF inst)
    (workers : List ℕ) (topo : List ℕ)
    (hord : TopoPrefixOrdered inst topo) (hnodup : topo.Nodup)
    (hlt : ∀ x ∈ topo, x < inst.num_tasks) :
    ∀ rem done t, topo = done ++ rem →
      t.length = inst.num_tasks →
      (∀ x ∈ done, GoodAssign inst workers t x) →
      ∀ tf, greedyLoop inst workers rem t = some tf →
        tf.length = inst.num_tasks ∧ ∀ x ∈ topo, GoodAssign inst workers tf x := by
  intro rem
  induction rem with
  | nil =>
    intro done t hdec hlen hgood tf htf
    have heq : tf = t := by
      have hr : greedyLoop inst workers [] t = some t := rfl
      rw [hr] at htf
      exact (Option.some_injective _ htf).symm
    subst heq
    rw [List.append_nil] at hdec
    subst hdec
    exact ⟨hlen, hgood⟩
  | cons i rem' ih =>
    intro done t hdec hlen hgood tf htf
    have hstep : greedyLoop inst workers (i :: rem') t
        = match stationFor inst workers t i with
          | some s => greedyLoop inst workers rem' (t.set i (s : ℤ))
          | none => none := rfl
    rw [hstep] at htf
    cases hsf : stationFor inst workers t i with
    | none =>
      rw [hsf] at htf
      simp at htf
    | some s =>
      rw [hsf] at htf
      obtain ⟨hsm, hcap, hpreds, -⟩ := stationFor_spec inst workers t i s hsf
      have hitopo : i ∈ topo := by
        rw [hdec]
        exact List.mem_append_right _ (List.mem_cons_self _ _)
      have hin : i < inst.num_tasks := hlt i hitopo
      have hilen : i < t.length := by
        rw [hlen]
        exact hin
      have hidone : i ∉ done := by
        have hnd := hnodup
        rw [hdec] at hnd
        intro hm
        exact (List.nodup_append.mp hnd).2.2 hm (List.mem_cons_self _ _)
      have hgi : GoodAssign inst workers (t.set i (s : ℤ)) i := by
        refine ⟨s, hsm, getD_set_self _ _ _ _ hilen, hcap, ?_⟩
        intro p hp hp2
        by_cases hpe : p.1 - 1 = i
        · rw [hpe, getD_set_self _ _ _ _ hilen]
        · rw [getD_set_ne _ _ _ _ _ (fun h => hpe h.symm)]
          exact hpreds p hp hp2
      have hgold : ∀ x ∈ done, GoodAssign inst workers (t.set i (s : ℤ)) x := by
        intro x hx
        obtain ⟨s0, hs0m, hs0v, hs0c, hs0p⟩ := hgood x hx
        have hxne : x ≠ i := fun he => hidone (he ▸ hx)
        refine ⟨s0, hs0m, ?_, hs0c, ?_⟩
        · rw [getD_set_ne _ _ _ _ _ (fun h => hxne h.symm)]
          exact hs0v
        · intro p hp hp2
          by_cases hpe : p.1 - 1 = i
          · exfalso
            obtain ⟨d1, d2, hxdec⟩ := List.append_of_mem hx
            have hdec2 : topo = d1 ++ x :: (d2 ++ i :: rem') := by
              rw [hdec, hxdec]
              simp
            have hmem := hord d1 x (d2 ++ i :: rem') hdec2 p hp hp2
            rw [hpe] at hmem
            exact hidone (hxdec ▸ List.mem_append_left _ hmem)
          · rw [getD_set_ne _ _ _ _ _ (fun h => hpe h.symm)]
            exact hs0p p hp hp2
      exact ih (done ++ [i]) (t.set i (s : ℤ)) (by rw [hdec]; simp)
        (by rw [List.length_set]; exact hlen)
        (fun x hx => by
          rcases List.mem_append.mp hx with h | h
          · exact hgold x h
          · rw [List.mem_singleton] at h
            exact h ▸ hgi)
        tf htf

theorem greedy_feasible (inst : ALWABPInstance) (hw : InstWF inst)
    (hacyc : AcyclicPrec inst) (workers : List ℕ) (tf : List ℤ)
    (htf : greedyLoop inst workers (topoOrder inst)
      (List.replicate inst.num_tasks (-1)) = some tf) :
    tf.length = inst.num_tasks ∧
    (evaluate (mkSolution inst tf workers)).is_feasible = true := by
  obtain ⟨hnodup, hltx, hord, -⟩ := topoOrder_good inst hw
  have hperm := topoOrder_perm inst hw hacyc
  obtain ⟨hlen, hgood⟩ := greedyLoop_inv inst hw workers (topoOrder inst) hord
    hnodup hltx (topoOrder inst) [] (List.replicate inst.num_tasks (-1))
    (by simp) (by simp) (by simp) tf htf
  have hall : ∀ x < inst.num_tasks, GoodAssign inst workers tf x := by
    intro x hx
    exact hgood x (hperm.mem_iff.mpr (List.mem_range.mpr hx))
  refine ⟨hlen, ?_⟩
  rw [show (evaluate (mkSolution inst tf workers)).is_feasible
    = (evalCore inst tf workers).1 from rfl]
  rw [evalCore_fst_iff inst tf workers hlen]
  refine ⟨?_, ?_, ?_⟩
  · intro i hi
    obtain ⟨s, hsm, hv, -, -⟩ := hall i hi
    rw [hv]
    omega
  · intro p hp
    have hp2 := hw.prec_snd p hp
    have hj : p.2 - 1 < inst.num_tasks := by omega
    obtain ⟨s, hsm, hv, -, hpred⟩ := hall (p.2 - 1) hj
    rw [hv]
    exact hpred p hp (by omega)
  · intro i hi
    obtain ⟨s, hsm, hv, hcap, -⟩ := hall i hi
    rw [hv]
    simpa using hcap

/-- C5: under a well-formed instance with an acyclic precedence graph,
the construction's processing order is a topological permutation of all
tasks; each task goes to the first station (in increasing index) whose
worker is capable and whose index is not before any already-placed
predecessor; and whenever the greedy loop places every task, the
returned solution is the evaluated one and it is feasible. -/
theorem claim_C5 (inst : ALWABPInstance) (g : Rng) (hw : InstWF inst)
    (hacyc : AcyclicPrec inst) :
    (topoOrder inst).Perm (List.range inst.num_tasks) ∧
    TopoPrefixOrdered inst (topoOrder inst) ∧
    (∀ t i s, stationFor inst (shuffleModel (List.range inst.num_workers) g).1
        t i = some s →
      s < inst.num_workers ∧
      (getT inst ((shuffleModel (List.range inst.num_workers) g).1.getD s 0)
        i).isSome = true ∧
      (∀ p ∈ inst.precedences, p.2 = i + 1 →
        t.getD (p.1 - 1) 0 ≤ (s : ℤ)) ∧
      ∀ s' < s,
        ¬((getT inst ((shuffleModel (List.range inst.num_workers) g).1.getD s' 0)
            i).isSome = true ∧
          ∀ p ∈ inst.precedences, p.2 = i + 1 →
            t.getD (p.1 - 1) 0 ≤ (s' : ℤ))) ∧
    ∀ tf, greedyLoop inst (shuffleModel (List.range inst.num_workers) g).1
        (topoOrder inst) (List.replicate inst.num_tasks (-1)) = some tf →
      (generate_initial_solution inst g).1
        = evaluate (mkSolution inst tf
            (shuffleModel (List.range inst.num_workers) g).1) ∧
      (generate_initial_solution inst g).1.is_feasible = true := by
  obtain ⟨-, -, hord, -⟩ := topoOrder_good inst hw
  refine ⟨topoOrder_perm inst hw hacyc, hord, ?_, ?_⟩
  · intro t i s hs
    exact stationFor_spec inst _ t i s hs
  · intro tf htf
    obtain ⟨hlen, hfeas⟩ := greedy_feasible inst hw hacyc _ tf htf
    have hcomp := topoOrder_complete inst hw hacyc
    have hres : (generate_initial_solution inst g).1
        = evaluate (mkSolution inst tf
            (shuffleModel (List.range inst.num_workers) g).1) := by
      unfold generate_initial_solution
      dsimp only
      rw [if_neg (by rw [hcomp]; simp)]
      rw [htf]
    exact ⟨hres, by rw [hres]; exact hfeas⟩

/-- Witness for C5: the topological order of the concrete acyclic
instance `instW` is a permutation of its task indices. -/
theorem claim_C5_witness :
    (topoOrder instW).Perm (List.range instW.num_tasks) :=
  (claim_C5 instW [] ⟨rfl, by decide, by decide, by decide⟩
    ⟨fun x => x, by decide⟩).1

/-- An instance on which no assignment can ever be feasible: some task
has the incapacitated sentinel for every worker. -/
def HasImpossibleTask (inst : ALWABPInstance) : Prop :=
  ∃ i, i < inst.num_tasks ∧ ∀ w : ℕ, getT inst w i = none

/-- The state of a solution that the search can never improve on an
impossible instance: right instance, full-length task array, flagged
infeasible with infinite cycle time. -/
def InfState (inst : ALWABPInstance) (sol : ALWABPSolution) : Prop :=
  sol.inst = inst ∧ sol.task_station_assignment.length = inst.num_tasks ∧
    sol.is_feasible = false ∧ sol.cycle_time = none

theorem evalCore_false_of_impossible (inst : ALWABPInstance)
    (himp : HasImpossibleTask inst) (t : List ℤ) (w : List ℕ)
    (hlen : t.length = inst.num_tasks) :
    (evalCore inst t w).1 = false := by
  obtain ⟨i, hi, hbad⟩ := himp
  cases hfe : (evalCore inst t w).1 with
  | false => rfl
  | true =>
    obtain ⟨-, -, hcap⟩ := (evalCore_fst_iff inst t w hlen).mp hfe
    have := hcap i hi
    rw [hbad] at this
    simp at this

theorem evaluate_infState (inst : ALWABPInstance)
    (himp : HasImpossibleTask inst) (sol : ALWABPSolution)
    (hinst : sol.inst = inst)
    (hlen : sol.task_station_assignment.length = inst.num_tasks) :
    InfState inst (evaluate sol) := by
  have hfe : (evaluate sol).is_feasible = false := by
    show (evalCore sol.inst sol.task_station_assignment
      sol.worker_station_assignment).1 = false
    rw [hinst]
    exact evalCore_false_of_impossible inst himp _ _ hlen
  refine ⟨hinst, hlen, hfe, ?_⟩
  exact (evalCore_false_outputs _ _ _ hfe).1

theorem shaking_fixed (inst : ALWABPInstance)
    (himp : HasImpossibleTask inst) (sol : ALWABPSolution)
    (hS : InfState inst sol) (k : ℕ) :
    ∀ attempts g, (shakingLoop sol k attempts g).1 = sol := by
  intro attempts
  induction attempts with
  | zero => intro g; rfl
  | succ a ih =>
    intro g
    unfold shakingLoop
    dsimp only
    by_cases h1 : shakingCapOk sol.inst (shakingPerturb sol k g).1.1
        (shakingPerturb sol k g).1.2 = true
    · rw [if_neg (by simp [h1])]
      by_cases h2 : check_precedence_feasibility sol.inst
          (shakingPerturb sol k g).1.1 = true
      · rw [if_neg (by simp [h2])]
        have hfe : (evaluate (mkSolution sol.inst (shakingPerturb sol k g).1.1
            (shakingPerturb sol k g).1.2)).is_feasible = false := by
          have hlen : (shakingPerturb sol k g).1.1.length = inst.num_tasks := by
            rw [shakingPerturb_fst_length]
            exact hS.2.1
          exact (evaluate_infState inst himp
            (mkSolution sol.inst (shakingPerturb sol k g).1.1
              (shakingPerturb sol k g).1.2) hS.1 hlen).2.2.1
        rw [if_neg (by simp [hfe])]
        exact ih _
      · rw [if_pos (by simp [Bool.eq_false_iff.mpr h2])]
        exact ih _
    · rw [if_pos (by simp [Bool.eq_false_iff.mpr h1])]
      exact ih _

theorem ls_task_infState (inst : ALWABPInstance)
    (himp : HasImpossibleTask inst) (sol : ALWABPSolution)
    (hS : InfState inst sol) (fuel : ℕ) :
    InfState inst (local_search_task_reassignment fuel sol) := by
  cases fuel with
  | zero => exact hS
  | succ f =>
    have hB := evaluate_infState inst himp sol hS.1 hS.2.1
    rw [ls_task_infeasible f sol hB.2.2.1]
    exact hB

theorem ls_worker_infeasible (fuel : ℕ) (sol : ALWABPSolution)
    (h : (evaluate sol).is_feasible = false) :
    local_search_worker_swap (fuel + 1) sol = evaluate sol := by
  unfold local_search_worker_swap
  dsimp only
  rw [if_pos h]

theorem ls_worker_infState (inst : ALWABPInstance)
    (himp : HasImpossibleTask inst) (sol : ALWABPSolution)
    (hS : InfState inst sol) (fuel : ℕ) :
    InfState inst (local_search_worker_swap fuel sol) := by
  cases fuel with
  | zero => exact hS
  | succ f =>
    have hB := evaluate_infState inst himp sol hS.1 hS.2.1
    rw [ls_worker_infeasible f sol hB.2.2.1]
    exact hB

theorem solutionLt_false_of_infState (inst : ALWABPInstance)
    (a b : ALWABPSolution) (ha : a.is_feasible = false) (hac : a.cycle_time = none)
    (hb : b.is_feasible = false) :
    solutionLt a b = false := by
  unfold solutionLt
  rw [if_neg (by rw [ha, hb]; simp), hac]
  rfl

theorem vndLoop_fixed (inst : ALWABPInstance)
    (himp : HasImpossibleTask inst) :
    ∀ fuel lsFuel sc l, InfState inst sc → vndLoop fuel lsFuel sc l = sc := by
  intro fuel
  induction fuel with
  | zero => intro lsFuel sc l hS; rfl
  | succ f ih =>
    intro lsFuel sc l hS
    unfold vndLoop
    by_cases hl : 2 < l
    · rw [if_pos hl]
    · rw [if_neg hl]
      dsimp only
      have hS' : InfState inst (if l = 1
          then local_search_task_reassignment lsFuel sc
          else local_search_worker_swap lsFuel sc) := by
        by_cases h1 : l = 1
        · rw [if_pos h1]
          exact ls_task_infState inst himp sc hS lsFuel
        · rw [if_neg h1]
          exact ls_worker_infState inst himp sc hS lsFuel
      rw [solutionLt_false_of_infState inst _ _ hS'.2.2.1 hS'.2.2.2 hS.2.2.1]
      simp only [Bool.false_eq_true, if_false]
      exact ih lsFuel sc (l + 1) hS

theorem vnd_fixed (inst : ALWABPInstance) (himp : HasImpossibleTask inst)
    (fuel : ℕ) (sol : ALWABPSolution) (hS : InfState inst sol) :
    vnd fuel sol = sol :=
  vndLoop_fixed inst himp fuel fuel sol 1 hS

theorem vnsInner_fixed (inst : ALWABPInstance) (himp : HasImpossibleTask inst)
    (lsFuel k_max : ℕ) (tl : Option ℚ) (start : ℚ) (s_init : ALWABPSolution) :
    ∀ fuel k cur best g c, InfState inst cur →
      vnsInner lsFuel k_max tl start s_init fuel k cur best g c
        = .inl (s_init, best) ∨
      ∃ g' c', vnsInner lsFuel k_max tl start s_init fuel k cur best g c
        = .inr (cur, best, g', c') := by
  intro fuel
  induction fuel with
  | zero => intro k cur best g c hS; exact .inr ⟨g, c, rfl⟩
  | succ f ih =>
    intro k cur best g c hS
    unfold vnsInner
    by_cases hk : k_max < k
    · rw [if_pos hk]; exact .inr ⟨g, c, rfl⟩
    · rw [if_neg hk]
      dsimp only
      by_cases ht : (vnsCheckTime tl start c).1 = true
      · rw [if_pos ht]; exact .inl rfl
      · rw [if_neg ht]
        have hsh : (shaking cur k g).1 = cur :=
          shaking_fixed inst himp cur hS k 10 g
        rw [hsh, vnd_fixed inst himp lsFuel cur hS, solutionLt_irrefl]
        simp only [Bool.false_eq_true, if_false]
        exact ih (k + 1) cur best (shaking cur k g).2 (vnsCheckTime tl start c).2 hS

theorem vnsOuter_fixed (inst : ALWABPInstance) (himp : HasImpossibleTask inst)
    (innerFuel lsFuel k_max : ℕ) (tl : Option ℚ) (start : ℚ)
    (s_init : ALWABPSolution) :
    ∀ iters cur best g c, InfState inst cur →
      vnsOuter innerFuel lsFuel k_max tl start s_init iters cur best g c
        = (s_init, best) := by
  intro iters
  induction iters with
  | zero => intro cur best g c hS; rfl
  | succ it ih =>
    intro cur best g c hS
    unfold vnsOuter
    dsimp only
    by_cases ht : (vnsCheckTime tl start c).1 = true
    · rw [if_pos ht]
    · rw [if_neg ht]
      rcases vnsInner_fixed inst himp lsFuel k_max tl start s_init innerFuel 1
          cur best g (vnsCheckTime tl start c).2 hS with h | ⟨g', c', h⟩
      · rw [h]
      · rw [h]
        exact ih cur best g' c' hS

theorem greedyLoop_some_length (inst : ALWABPInstance) (workers : List ℕ) :
    ∀ rem t tf, greedyLoop inst workers rem t = some tf → tf.length = t.length := by
  intro rem
  induction rem with
  | nil =>
    intro t tf h
    simp only [greedyLoop] at h
    rw [← Option.some_inj.mp h]
  | cons i rest ih =>
    intro t tf h
    simp only [greedyLoop] at h
    cases hs : stationFor inst workers t i with
    | none => rw [hs] at h; exact absurd h (by simp)
    | some s =>
      rw [hs] at h
      have := ih (t.set i (s : ℤ)) tf h
      simpa using this

theorem generate_infState (inst : ALWABPInstance)
    (himp : HasImpossibleTask inst) (g : Rng) :
    InfState inst (generate_initial_solution inst g).1 := by
  unfold generate_initial_solution
  dsimp only
  by_cases hl : (topoOrder inst).length ≠ inst.num_tasks
  · rw [if_pos hl]
    exact ⟨rfl, by simp [mkSolution], rfl, rfl⟩
  · rw [if_neg hl]
    cases hg : greedyLoop inst (shuffleModel (List.range inst.num_workers) g).1
        (topoOrder inst) (List.replicate inst.num_tasks (-1)) with
    | none => exact ⟨rfl, by simp [mkSolution], rfl, rfl⟩
    | some tf =>
      dsimp only
      have hlen : tf.length = inst.num_tasks := by
        have := greedyLoop_some_length inst _ _ _ _ hg
        simpa using this
      exact evaluate_infState inst himp
        (mkSolution inst tf (shuffleModel (List.range inst.num_workers) g).1)
        rfl hlen

theorem multiLoop_infState (inst : ALWABPInstance)
    (himp : HasImpossibleTask inst) :
    ∀ num best g, (best = none ∨ ∃ b, best = some b ∧ InfState inst b) →
      ((multiLoop inst num best g).1 = none ∨
        ∃ b, (multiLoop inst num best g).1 = some b ∧ InfState inst b) := by
  intro num
  induction num with
  | zero => intro best g h; exact h
  | succ n ih =>
    intro best g h
    simp only [multiLoop]
    apply ih
    right
    rcases h with h | ⟨b, hb, hSb⟩
    · subst h
      exact ⟨_, rfl, generate_infState inst himp g⟩
    · subst hb
      dsimp only
      by_cases hlt : solutionLt (generate_initial_solution inst g).1 b = true
      · rw [if_pos hlt]
        exact ⟨_, rfl, generate_infState inst himp g⟩
      · rw [if_neg hlt]
        exact ⟨b, rfl, hSb⟩

theorem multiLoop_isSome (inst : ALWABPInstance) :
    ∀ num best g, best.isSome = true ∨ 0 < num →
      (multiLoop inst num best g).1.isSome = true := by
  intro num
  induction num with
  | zero =>
    intro best g h
    rcases h with h | h
    · exact h
    · omega
  | succ n ih =>
    intro best g h
    simp only [multiLoop]
    apply ih
    left
    cases best with
    | none => simp
    | some b =>
      dsimp only
      by_cases hlt : solutionLt (generate_initial_solution inst g).1 b = true
      · rw [if_pos hlt]; rfl
      · rw [if_neg hlt]; rfl

theorem vns_infeasible (inst : ALWABPInstance) (himp : HasImpossibleTask inst)
    (max_iter k_max : ℕ) (tl : Option ℚ) (fuel : ℕ) (g : Rng) (c : Clock) :
    (vns inst max_iter k_max tl fuel g c).1.is_feasible = false ∧
    (vns inst max_iter k_max tl fuel g c).2.is_feasible = false := by
  unfold vns generate_initial_solution_multi
  dsimp only
  have hsome := multiLoop_isSome inst 3 none g (Or.inr (by omega))
  rcases multiLoop_infState inst himp 3 none g (Or.inl rfl) with h | ⟨b, hb, hSb⟩
  · rw [h] at hsome; simp at hsome
  · rw [hb]
    simp only [Option.getD_some]
    rw [vnsOuter_fixed inst himp fuel fuel k_max tl (readClock c).1 b max_iter b b
      (multiLoop inst 3 none g).2 (readClock c).2 hSb]
    exact ⟨hSb.2.2.1, hSb.2.2.1⟩

/-- A two-task, one-worker instance whose second task no worker can
perform (its only time entry is the `INF` sentinel): the greedy
construction places task 1 at station 0, then fails on task 2. -/
def instC6 : ALWABPInstance :=
  { num_tasks := 2, num_workers := 1,
    task_times := [[some 1, none]], precedences := [] }

theorem c6_shuffle : shuffleModel (List.range instC6.num_workers) ([] : Rng)
    = ([0], []) := by
  have h1 : List.range instC6.num_workers = [0] := by decide
  rw [h1]
  rw [shuffleModel]
  simp [randrange, shuffleModel]

theorem c6_topo : topoOrder instC6 = [0, 1] := by
  unfold topoOrder
  dsimp only
  have h1 : (List.range instC6.num_tasks).map
      (fun i => ((predecessorsOf instC6 (i + 1)).length : ℤ)) = [0, 0] := by decide
  rw [h1]
  have h2 : (List.range instC6.num_tasks).filter
      (fun i => ([(0 : ℤ), 0].getD i 0 == 0)) = [0, 1] := by decide
  rw [h2]
  rw [kahnLoop]
  have h3 : kahnProcess (successorsOf instC6 (0 + 1)) [0, 0] [1] = ([0, 0], [1]) := by
    decide
  rw [h3]
  rw [kahnLoop]
  have h4 : kahnProcess (successorsOf instC6 (1 + 1)) [0, 0] [] = ([0, 0], []) := by
    decide
  rw [h4]
  rw [kahnLoop]
  rfl

theorem c6_gen : (generate_initial_solution instC6 []).1
    = mkSolution instC6 [-1, -1] [0] := by
  unfold generate_initial_solution
  dsimp only
  rw [c6_topo, c6_shuffle]
  have hne : ¬(([0, 1] : List ℕ).length ≠ instC6.num_tasks) := by decide
  rw [if_neg hne]
  have hg : greedyLoop instC6 ([(0 : ℕ)], ([] : Rng)).1 [0, 1]
      (List.replicate instC6.num_tasks (-1)) = none := by decide
  rw [hg]
  rfl

/-- A solvable two-task, two-worker instance (each worker can perform
exactly one task, task 1 precedes task 2) on which the greedy
construction nevertheless fails under the worker permutation `[1, 0]`:
task 1 goes to station 1, and then no station fits task 2. -/
def instC6b : ALWABPInstance :=
  { num_tasks := 2, num_workers := 2,
    task_times := [[some 1, none], [none, some 1]], precedences := [(1, 2)] }

theorem c6b_shuffle : shuffleModel (List.range instC6b.num_workers)
    ([1, 0] : Rng) = ([1, 0], []) := by
  have h1 : List.range instC6b.num_workers = [0, 1] := by decide
  rw [h1]
  rw [shuffleModel]
  simp [randrange, shuffleModel]

theorem c6b_topo : topoOrder instC6b = [0, 1] := by
  unfold topoOrder
  dsimp only
  have h1 : (List.range instC6b.num_tasks).map
      (fun i => ((predecessorsOf instC6b (i + 1)).length : ℤ)) = [0, 1] := by decide
  rw [h1]
  have h2 : (List.range instC6b.num_tasks).filter
      (fun i => ([(0 : ℤ), 1].getD i 0 == 0)) = [0] := by decide
  rw [h2]
  rw [kahnLoop]
  have h3 : kahnProcess (successorsOf instC6b (0 + 1)) [0, 1] [] = ([0, 0], [1]) := by
    decide
  rw [h3]
  rw [kahnLoop]
  have h4 : kahnProcess (successorsOf instC6b (1 + 1)) [0, 0] [] = ([0, 0], []) := by
    decide
  rw [h4]
  rw [kahnLoop]
  rfl

theorem c6b_gen : (generate_initial_solution instC6b [1, 0]).1
    = mkSolution instC6b [-1, -1] [1, 0] := by
  unfold generate_initial_solution
  dsimp only
  rw [c6b_topo, c6b_shuffle]
  have hne : ¬(([0, 1] : List ℕ).length ≠ instC6b.num_tasks) := by decide
  rw [if_neg hne]
  have hg : greedyLoop instC6b (([1, 0], ([] : Rng)) : List ℕ × Rng).1 [0, 1]
      (List.replicate instC6b.num_tasks (-1)) = none := by decide
  rw [hg]
  rfl

/-- C6, refuted as stated: on `instC6` with an empty random stream the
greedy construction places task 1 (index 0) at station 0 and then fails
on task 2 (index 1, capable worker for no station), yet the returned
solution's task array is `[-1, -1]`: the station assigned before the
failure is NOT retained, contradicting the claimed "partial solution
retaining the station assignments of the tasks placed before the
failure". -/
theorem claim_C6_counterexample :
    stationFor instC6 [0] (List.replicate instC6.num_tasks (-1)) 0 = some 0 ∧
    stationFor instC6 [0] ((List.replicate instC6.num_tasks (-1 : ℤ)).set 0 0) 1
      = none ∧
    (generate_initial_solution instC6 []).1.is_feasible = false ∧
    (generate_initial_solution instC6 []).1.task_station_assignment.getD 0 0
      = -1 := by
  refine ⟨by decide, by decide, ?_, ?_⟩
  · rw [c6_gen]; rfl
  · rw [c6_gen]; rfl

/-- C6 (amended): when the greedy construction cannot place some task,
`generate_initial_solution` returns, without raising, a solution flagged
infeasible (`is_feasible = false`, infinite `cycle_time`) whose task
array is entirely unassigned (`[-1] * n`) — the assignments made before
the failure are discarded, not retained.  The VNS driver does not
necessarily report an infeasible result after such a failure: on the
solvable instance `instC6b` a greedy start fails, yet the `k = 3` shake
of its flagged output already produces a feasible evaluated neighbor.
When some task carries the incapacitated sentinel for every worker, so
that no recovery exists, the driver still runs to completion rather
than crashing and reports infeasibility: both solutions returned by
`vns` are flagged infeasible. -/
theorem claim_C6 (inst : ALWABPInstance) (g : Rng) (max_iter k_max : ℕ)
    (tl : Option ℚ) (fuel : ℕ) (c : Clock) :
    ((topoOrder inst).length = inst.num_tasks →
      greedyLoop inst (shuffleModel (List.range inst.num_workers) g).1
          (topoOrder inst) (List.replicate inst.num_tasks (-1)) = none →
      (generate_initial_solution inst g).1
          = mkSolution inst (List.replicate inst.num_tasks (-1))
              (shuffleModel (List.range inst.num_workers) g).1 ∧
        (generate_initial_solution inst g).1.is_feasible = false ∧
        (generate_initial_solution inst g).1.cycle_time = none ∧
        (generate_initial_solution inst g).1.task_station_assignment
          = List.replicate inst.num_tasks (-1)) ∧
    (HasImpossibleTask inst →
      (vns inst max_iter k_max tl fuel g c).1.is_feasible = false ∧
      (vns inst max_iter k_max tl fuel g c).2.is_feasible = false) ∧
    ((generate_initial_solution instC6b [1, 0]).1
        = mkSolution instC6b [-1, -1] [1, 0] ∧
      (shaking (generate_initial_solution instC6b [1, 0]).1 3
          [0, 0, 0, 0, 1, 1]).1.is_feasible = true) := by
  refine ⟨?_, ?_, c6b_gen, ?_⟩
  · intro h1 h2
    have hne : ¬((topoOrder inst).length ≠ inst.num_tasks) := fun h => h h1
    have hmain : (generate_initial_solution inst g).1
        = mkSolution inst (List.replicate inst.num_tasks (-1))
            (shuffleModel (List.range inst.num_workers) g).1 := by
      unfold generate_initial_solution
      dsimp only
      rw [if_neg hne, h2]
    exact ⟨hmain, by rw [hmain]; rfl, by rw [hmain]; rfl, by rw [hmain]; rfl⟩
  · intro himp
    exact vns_infeasible inst himp max_iter k_max tl fuel g c
  · rw [c6b_gen]
    decide

theorem claim_C6_witness :
    (generate_initial_solution instC6 []).1.task_station_assignment
        = List.replicate instC6.num_tasks (-1) ∧
    (vns instC6 2 1 none 2 [] []).2.is_feasible = false := by
  constructor
  · exact ((claim_C6 instC6 [] 2 1 none 2 []).1
      (by rw [c6_topo]; decide) (by rw [c6_shuffle, c6_topo]; decide)).2.2.2
  · exact ((claim_C6 instC6 [] 2 1 none 2 []).2.1
      ⟨1, by decide, fun w => by cases w <;> rfl⟩).2
